import Mathlib

/-!
Verification of the tic-tac-toe AI core of `script.js`
(board/rules engine, minimax agent, MCTS agent).

Boards are embedded as `List (Option Player)` mirroring the JS array of
`'X' | 'O' | null`.  JS `Math.random`-driven choices are modelled by an
explicit random source parameter.  Bounded loops and recursions of the
source are embedded with an explicit fuel argument chosen at each call
site to be at least the number of iterations the JS loop can perform, so
every definition is structurally recursive and evaluable by the kernel.
-/

namespace TTT

inductive Player : Type where
  | X : Player
  | O : Player
deriving DecidableEq, Repr

open Player

/-- JS: `currentTurn === PLAYER_X ? PLAYER_O : PLAYER_X` and symmetric uses. -/
def other : Player → Player
  | X => O
  | O => X

/-- A board cell: `null` (empty) or a player marker. -/
abbrev Cell := Option Player

/-- JS boards are arrays of 9 cells; the embedding is a list of cells
(the length is 9 at every call site of the program). -/
abbrev Board := List Cell

/-- Positional list lookup, `l[i]` of JS (out of range gives `none`,
    matching JS `undefined`). -/
def nth {α : Type _} : List α → ℕ → Option α
  | [], _ => none
  | x :: _, 0 => some x
  | _ :: xs, i + 1 => nth xs i

/-- Replace one element of a list, `l[i] = v` of JS restricted to
    in-range indices (every write of the program is at an index produced
    by `getAvailableMoves`, hence in range; out-of-range is a no-op). -/
def modifyAt {α : Type _} : List α → ℕ → (α → α) → List α
  | [], _, _ => []
  | x :: xs, 0, f => f x :: xs
  | x :: xs, i + 1, f => x :: modifyAt xs i f

/-- JS `newBoard[move] = p` (writes a marker into a cell). -/
def setCell (board : Board) (i : ℕ) (p : Player) : Board :=
  modifyAt board i (fun _ => some p)

/-- Read `board[i]` as a cell; out-of-range reads give `none`
    (JS `undefined`, which is falsy exactly like `null` in `checkWin`). -/
def cellAt (board : Board) (i : ℕ) : Cell :=
  match nth board i with
  | some c => c
  | none => none

/-- JS `WINNING_COMBOS`: 3 rows, 3 columns, 2 diagonals. -/
def WINNING_COMBOS : List (ℕ × ℕ × ℕ) :=
  [(0, 1, 2), (3, 4, 5), (6, 7, 8),
   (0, 3, 6), (1, 4, 7), (2, 5, 8),
   (0, 4, 8), (2, 4, 6)]

/-- One iteration of the `checkWin` loop body: the combo's winner, if any.
    JS: `board[a] && board[a] === board[b] && board[a] === board[c]`. -/
def comboWinner (board : Board) (combo : ℕ × ℕ × ℕ) : Option Player :=
  match cellAt board combo.1 with
  | none => none
  | some p =>
    if cellAt board combo.2.1 = some p ∧ cellAt board combo.2.2 = some p then some p
    else none

/-- JS `checkWin`: first combo fully occupied by one marker, else `null`. -/
def checkWin (board : Board) : Option Player :=
  WINNING_COMBOS.findSome? (comboWinner board)

/-- JS `checkTie`: no winner and every cell occupied. -/
def checkTie (board : Board) : Bool :=
  (checkWin board).isNone && board.all (fun cell => cell.isSome)

/-- Helper for `getAvailableMoves`: indices (from offset `k`) of the empty
    cells, in ascending order — the JS `map`/`filter` pipeline computes
    exactly this list. -/
def availAux : Board → ℕ → List ℕ
  | [], _ => []
  | none :: rest, k => k :: availAux rest (k + 1)
  | some _ :: rest, k => availAux rest (k + 1)

/-- JS `getAvailableMoves`: ascending indices of empty cells. -/
def getAvailableMoves (board : Board) : List ℕ :=
  availAux board 0

/-- Number of empty cells; used as fuel for the search recursions (each
    recursive step of the source fills one empty cell). -/
def emptyCount (board : Board) : ℕ :=
  board.countP (fun cell => cell.isNone)

/-- A board is terminal when it has a winner or is a tie
    (JS `result !== null || checkTie(board)`). -/
def isTerminal (board : Board) : Bool :=
  (checkWin board).isSome || checkTie board

/- ------------------------------------------------------------------ -/
/- Basic lemmas about the board model.                                 -/
/- ------------------------------------------------------------------ -/

theorem nth_append_left {α : Type _} (l l' : List α) (j : ℕ) (h : j < l.length) :
    nth (l ++ l') j = nth l j := by
  induction l generalizing j with
  | nil => simp at h
  | cons x xs ih =>
    cases j with
    | zero => rfl
    | succ j => simpa [nth] using ih j (by simpa using Nat.lt_of_succ_lt_succ h)

theorem nth_append_right_eq {α : Type _} (l : List α) (x : α) :
    nth (l ++ [x]) l.length = some x := by
  induction l with
  | nil => rfl
  | cons y ys ih => simpa [nth] using ih

theorem modifyAt_length {α : Type _} (l : List α) (i : ℕ) (f : α → α) :
    (modifyAt l i f).length = l.length := by
  induction l generalizing i with
  | nil => rfl
  | cons x xs ih =>
    cases i with
    | zero => rfl
    | succ i => simpa [modifyAt] using ih i

theorem nth_modifyAt {α : Type _} (l : List α) (k : ℕ) (f : α → α) (i : ℕ) :
    nth (modifyAt l k f) i = if i = k then (nth l k).map f else nth l i := by
  induction l generalizing k i with
  | nil => simp [modifyAt, nth]
  | cons x xs ih =>
    cases k with
    | zero =>
      cases i with
      | zero => simp [modifyAt, nth]
      | succ i => simp [modifyAt, nth]
    | succ k =>
      cases i with
      | zero => simp [modifyAt, nth]
      | succ i =>
        simp only [modifyAt, nth]
        rw [ih]
        by_cases h : i = k
        · rw [if_pos h, if_pos (by omega)]
        · rw [if_neg h, if_neg (by omega)]

theorem mem_availAux (b : Board) (k i : ℕ) :
    i ∈ availAux b k ↔ k ≤ i ∧ nth b (i - k) = some none := by
  induction b generalizing k with
  | nil => simp [availAux, nth]
  | cons c rest ih =>
    cases c with
    | none =>
      simp only [availAux, List.mem_cons, ih]
      constructor
      · rintro (rfl | ⟨hk, hn⟩)
        · exact ⟨Nat.le_refl _, by simp [nth]⟩
        · refine ⟨Nat.le_of_succ_le hk, ?_⟩
          have hik : i - k = (i - (k + 1)) + 1 := by omega
          rw [hik]; simpa [nth] using hn
      · rintro ⟨hk, hn⟩
        rcases Nat.eq_or_lt_of_le hk with rfl | hlt
        · exact Or.inl rfl
        · refine Or.inr ⟨hlt, ?_⟩
          have hik : i - k = (i - (k + 1)) + 1 := by omega
          rw [hik] at hn; simpa [nth] using hn
    | some p =>
      simp only [availAux, ih]
      constructor
      · rintro ⟨hk, hn⟩
        refine ⟨Nat.le_of_succ_le hk, ?_⟩
        have hik : i - k = (i - (k + 1)) + 1 := by omega
        rw [hik]; simpa [nth] using hn
      · rintro ⟨hk, hn⟩
        rcases Nat.eq_or_lt_of_le hk with rfl | hlt
        · simp [nth] at hn
        · refine ⟨hlt, ?_⟩
          have hik : i - k = (i - (k + 1)) + 1 := by omega
          rw [hik] at hn; simpa [nth] using hn

theorem mem_getAvailableMoves (b : Board) (i : ℕ) :
    i ∈ getAvailableMoves b ↔ nth b i = some none := by
  simpa [getAvailableMoves] using mem_availAux b 0 i

theorem availAux_pairwise (b : Board) (k : ℕ) :
    (availAux b k).Pairwise (· < ·) := by
  induction b generalizing k with
  | nil => simp [availAux]
  | cons c rest ih =>
    cases c with
    | none =>
      refine List.Pairwise.cons ?_ (ih (k + 1))
      intro x hx
      have := (mem_availAux rest (k + 1) x).mp hx
      omega
    | some p => exact ih (k + 1)

theorem getAvailableMoves_pairwise (b : Board) :
    (getAvailableMoves b).Pairwise (· < ·) :=
  availAux_pairwise b 0

theorem emptyCount_setCell (b : Board) (i : ℕ) (p : Player)
    (h : nth b i = some none) : emptyCount (setCell b i p) + 1 = emptyCount b := by
  induction b generalizing i with
  | nil => simp [nth] at h
  | cons c rest ih =>
    cases i with
    | zero =>
      cases c with
      | none => simp [setCell, modifyAt, emptyCount]
      | some q => simp [nth] at h
    | succ i =>
      have h' : nth rest i = some none := by simpa [nth] using h
      have := ih i h'
      cases c with
      | none => simpa [setCell, modifyAt, emptyCount] using this
      | some q => simpa [setCell, modifyAt, emptyCount] using this

theorem nth_some_of_mem {α : Type _} {a : α} {l : List α} (h : a ∈ l) :
    ∃ i, nth l i = some a := by
  induction l with
  | nil => simp at h
  | cons x xs ih =>
    rcases List.mem_cons.mp h with rfl | hx
    · exact ⟨0, rfl⟩
    · rcases ih hx with ⟨i, hi⟩
      exact ⟨i + 1, hi⟩

theorem emptyCount_pos_of_not_terminal (b : Board) (h : isTerminal b = false) :
    0 < emptyCount b := by
  have h2 : (checkWin b).isSome = false ∧ checkTie b = false := by
    constructor
    · by_contra hc
      have : (checkWin b).isSome = true := by
        cases hx : (checkWin b).isSome with
        | true => rfl
        | false => exact absurd hx hc
      simp [isTerminal, this] at h
    · by_contra hc
      have : checkTie b = true := by
        cases hx : checkTie b with
        | true => rfl
        | false => exact absurd hx hc
      simp [isTerminal, this] at h
  obtain ⟨hwin, htie⟩ := h2
  have hall : ¬ b.all (fun cell => cell.isSome) = true := by
    intro hallt
    have : checkTie b = true := by
      simp only [checkTie, hallt, Bool.and_true]
      simp [Option.isNone_iff_eq_none, ← Option.not_isSome_iff_eq_none, hwin]
    rw [this] at htie; cases htie
  have hex : ∃ c ∈ b, ¬ c.isSome = true := by
    by_contra hc
    push_neg at hc
    exact hall (List.all_eq_true.mpr (fun c hcmem => by
      have := hc c hcmem
      simpa using this))
  obtain ⟨c, hc, hcs⟩ := hex
  have hcn : c = none := by cases c <;> simp at hcs ⊢
  subst hcn
  exact List.countP_pos_iff.mpr ⟨none, hc, by simp⟩

theorem exists_move_of_not_terminal (b : Board) (h : isTerminal b = false) :
    getAvailableMoves b ≠ [] := by
  have hpos := emptyCount_pos_of_not_terminal b h
  have hc : (none : Cell) ∈ b := by simpa [emptyCount] using hpos
  rcases nth_some_of_mem hc with ⟨i, hi⟩
  have : i ∈ getAvailableMoves b := (mem_getAvailableMoves b i).mpr hi
  exact List.ne_nil_of_mem this

/- ------------------------------------------------------------------ -/
/- Minimax agent.                                                      -/
/- ------------------------------------------------------------------ -/

namespace MinimaxAgent

/-- JS `MinimaxAgent.evaluate`: +10 if O won, -10 if X won, else 0. -/
def evaluate (board : Board) : Int :=
  match checkWin board with
  | some Player.O => 10
  | some Player.X => -10
  | none => 0

/-- The terminal branch of JS `minimax`: evaluate and adjust by depth
    (subtract from positive scores, add to negative ones, 0 for draws). -/
def terminalScore (board : Board) (depth : ℕ) : Int :=
  let score := evaluate board
  if 0 < score then score - depth
  else if score < 0 then score + depth
  else 0

/-- JS `MinimaxAgent.minimax`, with explicit fuel (one unit per ply; the
    wrapper `minimax` below supplies `emptyCount board`, which is exactly
    the maximal recursion depth, so the fuel-0 non-terminal fallback `0`
    is never reached from the wrapper).  The JS fold of `Math.max` /
    `Math.min` starting from `±Infinity` over a non-empty score list is
    embedded as a fold from the head; a non-terminal board always has at
    least one legal move (`exists_move_of_not_terminal`), so the `[]`
    branch (JS would return `±Infinity`) is unreachable. -/
def minimaxF : ℕ → Board → Bool → ℕ → Int
  | 0, board, _, depth => if isTerminal board then terminalScore board depth else 0
  | fuel + 1, board, isMaximizing, depth =>
    if isTerminal board then terminalScore board depth
    else
      let playerToMove := if isMaximizing then Player.O else Player.X
      let scores := (getAvailableMoves board).map
        (fun move => minimaxF fuel (setCell board move playerToMove) (!isMaximizing) (depth + 1))
      match scores with
      | [] => 0
      | s :: ss => if isMaximizing then ss.foldl max s else ss.foldl min s

/-- JS `MinimaxAgent.minimax` (fuel instantiated to the empty-cell count). -/
def minimax (board : Board) (isMaximizing : Bool) (depth : ℕ) : Int :=
  minimaxF (emptyCount board) board isMaximizing depth

/-- The score JS `selectMove` computes for one candidate move. -/
def scoreOf (board : Board) (player : Player) (move : ℕ) : Int :=
  minimax (setCell board move player) (!(player == Player.O)) 0

/-- The loop of JS `MinimaxAgent.selectMove`: `bs = none` stands for the
    initial `±Infinity` best score (every first score replaces it), `bm`
    is the running best move (initially `-1`). -/
def selGo (board : Board) (player : Player) (isMax : Bool) :
    List ℕ → Option Int → Int → Int
  | [], _, bm => bm
  | m :: ms, bs, bm =>
    let score := minimax (setCell board m player) (!isMax) 0
    let take : Bool :=
      match bs with
      | none => true
      | some v => if isMax then decide (v < score) else decide (score < v)
    if take then selGo board player isMax ms (some score) (m : Int)
    else selGo board player isMax ms bs bm

/-- JS `MinimaxAgent.selectMove`. -/
def selectMove (board : Board) (player : Player) : Int :=
  let isMaximizing := player == Player.O
  selGo board player isMaximizing (getAvailableMoves board) none (-1)

end MinimaxAgent

open MinimaxAgent in
theorem minimax_def_eq (b : Board) (m : Bool) (d : ℕ) :
    minimax b m d = minimaxF (emptyCount b) b m d := rfl

open MinimaxAgent

/- ------------------------------------------------------------------ -/
/- Minimax lemmas.                                                     -/
/- ------------------------------------------------------------------ -/

theorem minimaxF_eq_minimax (b : Board) (m : Bool) (d : ℕ)
    (hterm : isTerminal b = false) :
    ∃ e, emptyCount b = e + 1 ∧
      minimax b m d = minimaxF (e + 1) b m d := by
  rcases Nat.exists_eq_add_of_lt (emptyCount_pos_of_not_terminal b hterm) with ⟨e, he⟩
  refine ⟨e, by omega, ?_⟩
  unfold minimax
  rw [show emptyCount b = e + 1 by omega]

theorem foldl_max_spec (s : Int) (ss : List Int) :
    (∀ x ∈ s :: ss, x ≤ ss.foldl max s) ∧ ss.foldl max s ∈ s :: ss := by
  induction ss generalizing s with
  | nil => simp
  | cons t ts ih =>
    rcases ih (max s t) with ⟨hle, hmem⟩
    constructor
    · intro x hx
      rcases List.mem_cons.mp hx with rfl | hx
      · exact le_trans (le_max_left x t) (hle _ (List.mem_cons_self _ _))
      · rcases List.mem_cons.mp hx with rfl | hx
        · exact le_trans (le_max_right s x) (hle _ (List.mem_cons_self _ _))
        · exact hle _ (List.mem_cons_of_mem _ hx)
    · rcases List.mem_cons.mp hmem with hm | hm
      · rcases max_choice s t with hc | hc
        · rw [List.foldl_cons, hm, hc]
          exact List.mem_cons_self _ _
        · rw [List.foldl_cons, hm, hc]
          exact List.mem_cons_of_mem _ (List.mem_cons_self _ _)
      · rw [List.foldl_cons]
        exact List.mem_cons_of_mem _ (List.mem_cons_of_mem _ hm)

theorem foldl_min_spec (s : Int) (ss : List Int) :
    (∀ x ∈ s :: ss, ss.foldl min s ≤ x) ∧ ss.foldl min s ∈ s :: ss := by
  induction ss generalizing s with
  | nil => simp
  | cons t ts ih =>
    rcases ih (min s t) with ⟨hle, hmem⟩
    constructor
    · intro x hx
      rcases List.mem_cons.mp hx with rfl | hx
      · exact le_trans (hle _ (List.mem_cons_self _ _)) (min_le_left x t)
      · rcases List.mem_cons.mp hx with rfl | hx
        · exact le_trans (hle _ (List.mem_cons_self _ _)) (min_le_right s x)
        · exact hle _ (List.mem_cons_of_mem _ hx)
    · rcases List.mem_cons.mp hmem with hm | hm
      · rcases min_choice s t with hc | hc
        · rw [List.foldl_cons, hm, hc]
          exact List.mem_cons_self _ _
        · rw [List.foldl_cons, hm, hc]
          exact List.mem_cons_of_mem _ (List.mem_cons_self _ _)
      · rw [List.foldl_cons]
        exact List.mem_cons_of_mem _ (List.mem_cons_of_mem _ hm)

theorem minimax_terminal (b : Board) (m : Bool) (d : ℕ)
    (h : isTerminal b = true) :
    minimax b m d = MinimaxAgent.terminalScore b d := by
  unfold minimax
  cases hec : emptyCount b with
  | zero => simp [MinimaxAgent.minimaxF, h]
  | succ e => simp [MinimaxAgent.minimaxF, h]

/-- On a non-terminal board `minimax` is the fold of the one-deeper
    recursive scores over the legal moves, exactly as the source loops. -/
theorem minimax_nonterminal (b : Board) (m : Bool) (d : ℕ)
    (h : isTerminal b = false) :
    ∃ s ss,
      (getAvailableMoves b).map
          (fun move => minimax (setCell b move (if m then Player.O else Player.X)) (!m) (d + 1))
        = s :: ss ∧
      minimax b m d = (if m then ss.foldl max s else ss.foldl min s) := by
  rcases minimaxF_eq_minimax b m d h with ⟨e, he, hmm⟩
  have hmap :
      (getAvailableMoves b).map
          (fun move => minimaxF e (setCell b move (if m then Player.O else Player.X)) (!m) (d + 1))
        = (getAvailableMoves b).map
          (fun move => minimax (setCell b move (if m then Player.O else Player.X)) (!m) (d + 1)) := by
    apply List.map_congr_left
    intro i hi
    have hnth := (mem_getAvailableMoves b i).mp hi
    have hec : emptyCount (setCell b i (if m then Player.O else Player.X)) = e := by
      have := emptyCount_setCell b i (if m then Player.O else Player.X) hnth
      omega
    unfold minimax
    rw [hec]
  rcases hmov : getAvailableMoves b with _ | ⟨i0, irest⟩
  · exact absurd hmov (exists_move_of_not_terminal b h)
  · refine ⟨minimax (setCell b i0 (if m then Player.O else Player.X)) (!m) (d + 1),
      irest.map
        (fun move => minimax (setCell b move (if m then Player.O else Player.X)) (!m) (d + 1)),
      by simp, ?_⟩
    rw [hmm]
    unfold minimaxF
    rw [if_neg (by simp [h])]
    simp only
    rw [hmap, hmov]
    simp only [List.map_cons]

/-- Means `s` is strictly better than `t` from the moving side's point of view
    (the comparison the JS `selectMove` loop uses to replace its best). -/
def beats (isMax : Bool) (s t : Int) : Prop :=
  if isMax then t < s else s < t

theorem beats_irrefl (isMax : Bool) (s : Int) : ¬ beats isMax s s := by
  cases isMax <;> simp [beats]

theorem beats_asymm (isMax : Bool) (s t : Int) (h : beats isMax s t) :
    ¬ beats isMax t s := by
  cases isMax <;> simp [beats] at * <;> omega

theorem beats_trans_of_not (isMax : Bool) (s v t : Int)
    (h1 : ¬ beats isMax s v) (h2 : beats isMax t v) : beats isMax t s := by
  cases isMax <;> simp [beats] at * <;> omega

theorem beats_trans (isMax : Bool) (s v t : Int)
    (h1 : beats isMax s v) (h2 : beats isMax v t) : beats isMax s t := by
  cases isMax <;> simp [beats] at * <;> omega

/-- Behaviour of the JS `selectMove` scan once a real best score `v` is
    installed: either nothing beat `v` (the incoming best move survives),
    or the result is the first move attaining the final best score. -/
theorem selGo_spec (b : Board) (p : Player) (isMax : Bool) :
    ∀ (ms : List ℕ) (v : Int) (bm : Int),
      (selGo b p isMax ms (some v) bm = bm ∧
        ∀ m ∈ ms, ¬ beats isMax (minimax (setCell b m p) (!isMax) 0) v) ∨
      (∃ (pre : List ℕ) (m : ℕ) (post : List ℕ), ms = pre ++ m :: post ∧
        selGo b p isMax ms (some v) bm = (m : Int) ∧
        beats isMax (minimax (setCell b m p) (!isMax) 0) v ∧
        (∀ m2 ∈ pre, beats isMax (minimax (setCell b m p) (!isMax) 0)
          (minimax (setCell b m2 p) (!isMax) 0)) ∧
        (∀ m2 ∈ ms, ¬ beats isMax (minimax (setCell b m2 p) (!isMax) 0)
          (minimax (setCell b m p) (!isMax) 0))) := by
  intro ms
  induction ms with
  | nil => intro v bm; left; simp [selGo]
  | cons m0 rest ih =>
    intro v bm
    by_cases htake : beats isMax (minimax (setCell b m0 p) (!isMax) 0) v
    · have hstep : selGo b p isMax (m0 :: rest) (some v) bm
          = selGo b p isMax rest (some (minimax (setCell b m0 p) (!isMax) 0)) (m0 : Int) := by
        simp only [selGo]
        rw [if_pos]
        cases hmx : isMax <;> simp [beats, hmx] at htake ⊢ <;> omega
      rcases ih (minimax (setCell b m0 p) (!isMax) 0) (m0 : Int) with ⟨hres, hall⟩ | hex
      · right
        refine ⟨[], m0, rest, by simp, by rw [hstep]; exact hres, htake, by simp, ?_⟩
        intro m2 hm2
        rcases List.mem_cons.mp hm2 with rfl | hm2
        · exact beats_irrefl isMax _
        · exact hall m2 hm2
      · obtain ⟨pre, m, post, hsplit, hres, hbeat, hpre, hall⟩ := hex
        right
        refine ⟨m0 :: pre, m, post, by simp [hsplit], by rw [hstep]; exact hres, ?_, ?_, ?_⟩
        · exact beats_trans isMax _ _ _ hbeat htake
        · intro m2 hm2
          rcases List.mem_cons.mp hm2 with rfl | hm2
          · exact hbeat
          · exact hpre m2 hm2
        · intro m2 hm2
          rcases List.mem_cons.mp hm2 with rfl | hm2
          · exact beats_asymm isMax _ _ hbeat
          · exact hall m2 (hsplit ▸ hm2)
    · have hstep : selGo b p isMax (m0 :: rest) (some v) bm
          = selGo b p isMax rest (some v) bm := by
        simp only [selGo]
        rw [if_neg]
        cases hmx : isMax <;> simp [beats, hmx] at htake ⊢ <;> omega
      rcases ih v bm with ⟨hres, hall⟩ | hex
      · left
        refine ⟨by rw [hstep]; exact hres, ?_⟩
        intro m2 hm2
        rcases List.mem_cons.mp hm2 with rfl | hm2
        · exact htake
        · exact hall m2 hm2
      · obtain ⟨pre, m, post, hsplit, hres, hbeat, hpre, hall⟩ := hex
        right
        refine ⟨m0 :: pre, m, post, by simp [hsplit], by rw [hstep]; exact hres, hbeat, ?_, ?_⟩
        · intro m2 hm2
          rcases List.mem_cons.mp hm2 with rfl | hm2
          · exact beats_trans_of_not isMax _ _ _ htake hbeat
          · exact hpre m2 hm2
        · intro m2 hm2
          rcases List.mem_cons.mp hm2 with rfl | hm2
          · exact beats_asymm isMax _ _ (beats_trans_of_not isMax _ _ _ htake hbeat)
          · exact hall m2 (hsplit ▸ hm2)

/-- Claim C4: on terminal boards `minimax` returns `evaluate` adjusted by depth
(`evaluate` being +10 for an O win, -10 for an X win, 0 otherwise:
subtract the depth from positive scores, add it to negative ones, keep
draws at 0); on non-terminal boards it returns the maximum (when
maximizing, placing O) resp. minimum (when minimizing, placing X) over
all legal moves of the recursive value at flipped flag and depth + 1. -/
theorem minimax_matches_spec :
    (∀ b, checkWin b = some Player.O → evaluate b = 10) ∧
    (∀ b, checkWin b = some Player.X → evaluate b = -10) ∧
    (∀ b, checkWin b = none → evaluate b = 0) ∧
    (∀ b m d, isTerminal b = true → 0 < evaluate b →
      minimax b m d = evaluate b - (d : Int)) ∧
    (∀ b m d, isTerminal b = true → evaluate b < 0 →
      minimax b m d = evaluate b + (d : Int)) ∧
    (∀ b m d, isTerminal b = true → evaluate b = 0 → minimax b m d = 0) ∧
    (∀ b d, isTerminal b = false →
      (∀ i ∈ getAvailableMoves b,
        minimax (setCell b i Player.O) false (d + 1) ≤ minimax b true d) ∧
      ∃ i ∈ getAvailableMoves b,
        minimax b true d = minimax (setCell b i Player.O) false (d + 1)) ∧
    (∀ b d, isTerminal b = false →
      (∀ i ∈ getAvailableMoves b,
        minimax b false d ≤ minimax (setCell b i Player.X) true (d + 1)) ∧
      ∃ i ∈ getAvailableMoves b,
        minimax b false d = minimax (setCell b i Player.X) true (d + 1)) := by
  refine ⟨?_, ?_, ?_, ?_, ?_, ?_, ?_, ?_⟩
  · intro b h; simp [evaluate, h]
  · intro b h; simp [evaluate, h]
  · intro b h; simp [evaluate, h]
  · intro b m d hterm hpos
    rw [minimax_terminal b m d hterm]
    simp only [terminalScore]
    rw [if_pos hpos]
  · intro b m d hterm hneg
    rw [minimax_terminal b m d hterm]
    simp only [terminalScore]
    rw [if_neg (by omega), if_pos hneg]
  · intro b m d hterm hzero
    rw [minimax_terminal b m d hterm]
    simp only [terminalScore]
    rw [if_neg (by omega), if_neg (by omega)]
  · intro b d h
    obtain ⟨s, ss, hmap, hval⟩ := minimax_nonterminal b true d h
    simp only [if_pos rfl, Bool.not_true] at hmap hval
    have hspec := foldl_max_spec s ss
    constructor
    · intro i hi
      have hmem : minimax (setCell b i Player.O) false (d + 1) ∈ s :: ss := by
        rw [← hmap]
        exact List.mem_map_of_mem _ hi
      rw [hval]
      exact hspec.1 _ hmem
    · have hmem := hspec.2
      rw [← hmap] at hmem
      obtain ⟨i, hi, hfi⟩ := List.mem_map.mp hmem
      exact ⟨i, hi, by rw [hval]; exact hfi.symm⟩
  · intro b d h
    obtain ⟨s, ss, hmap, hval⟩ := minimax_nonterminal b false d h
    simp only [Bool.false_eq_true, if_false, Bool.not_false] at hmap hval
    have hspec := foldl_min_spec s ss
    constructor
    · intro i hi
      have hmem : minimax (setCell b i Player.X) true (d + 1) ∈ s :: ss := by
        rw [← hmap]
        exact List.mem_map_of_mem _ hi
      rw [hval]
      exact hspec.1 _ hmem
    · have hmem := hspec.2
      rw [← hmap] at hmem
      obtain ⟨i, hi, hfi⟩ := List.mem_map.mp hmem
      exact ⟨i, hi, by rw [hval]; exact hfi.symm⟩

theorem minimax_matches_spec_witness :
    isTerminal [some Player.X, none, none, some Player.O] = false ∧
    ((∀ i ∈ getAvailableMoves [some Player.X, none, none, some Player.O],
      minimax (setCell [some Player.X, none, none, some Player.O] i Player.O) false 1
        ≤ minimax [some Player.X, none, none, some Player.O] true 0) ∧
     ∃ i ∈ getAvailableMoves [some Player.X, none, none, some Player.O],
      minimax [some Player.X, none, none, some Player.O] true 0
        = minimax (setCell [some Player.X, none, none, some Player.O] i Player.O) false 1) :=
  ⟨by decide, minimax_matches_spec.2.2.2.2.2.2.1 [some Player.X, none, none, some Player.O] 0
    (by decide)⟩

/-- Claim C5: whenever the board has a legal move, `MinimaxAgent.selectMove`
returns the first-encountered move in ascending cell-index order among
those achieving the best score from the given player's side (strictly
better scores replace the running best, equal ones do not), and — being a
pure function of board and player — two calls on identical inputs return
the identical move. -/
theorem minimax_selectMove_first_best (b : Board) (p : Player)
    (h : getAvailableMoves b ≠ []) :
    ∃ m ∈ getAvailableMoves b,
      MinimaxAgent.selectMove b p = (m : Int) ∧
      (∀ m2 ∈ getAvailableMoves b,
        ¬ beats (p == Player.O) (minimax (setCell b m2 p) (!(p == Player.O)) 0)
          (minimax (setCell b m p) (!(p == Player.O)) 0)) ∧
      (∀ m2 ∈ getAvailableMoves b,
        minimax (setCell b m2 p) (!(p == Player.O)) 0
          = minimax (setCell b m p) (!(p == Player.O)) 0 → m ≤ m2) ∧
      MinimaxAgent.selectMove b p = MinimaxAgent.selectMove b p := by
  set isMax := (p == Player.O) with hisMax
  rcases hmov : getAvailableMoves b with _ | ⟨i0, rest⟩
  · exact absurd hmov h
  have hpw : (i0 :: rest).Pairwise (· < ·) := hmov ▸ getAvailableMoves_pairwise b
  have hstep : MinimaxAgent.selectMove b p
      = selGo b p isMax rest (some (minimax (setCell b i0 p) (!isMax) 0)) (i0 : Int) := by
    unfold MinimaxAgent.selectMove
    rw [← hisMax, hmov]
    simp [selGo]
  rcases selGo_spec b p isMax rest (minimax (setCell b i0 p) (!isMax) 0) (i0 : Int)
    with ⟨hres, hall⟩ | hex
  · refine ⟨i0, List.mem_cons_self _ _, by rw [hstep, hres], ?_, ?_, rfl⟩
    · intro m2 hm2
      rcases List.mem_cons.mp hm2 with rfl | hm2
      · exact beats_irrefl _ _
      · exact hall m2 hm2
    · intro m2 hm2 _
      rcases List.mem_cons.mp hm2 with rfl | hm2
      · exact Nat.le_refl _
      · exact Nat.le_of_lt ((List.pairwise_cons.mp hpw).1 m2 hm2)
  · obtain ⟨pre, m, post, hsplit, hres, hbeat, hpre, hall⟩ := hex
    have hmmem : m ∈ i0 :: rest := by
      rw [hsplit]
      exact List.mem_cons_of_mem _ (List.mem_append_right _ (List.mem_cons_self _ _))
    refine ⟨m, hmmem, by rw [hstep, hres], ?_, ?_, rfl⟩
    · intro m2 hm2
      rcases List.mem_cons.mp hm2 with rfl | hm2
      · exact beats_asymm _ _ _ hbeat
      · exact hall m2 (hsplit ▸ hm2)
    · intro m2 hm2 heq
      rcases List.mem_cons.mp hm2 with rfl | hm2
      · exact absurd (heq ▸ hbeat) (beats_irrefl _ _)
      · rw [hsplit] at hm2
        rcases List.mem_append.mp hm2 with hm2 | hm2
        · exact absurd (heq ▸ hpre m2 hm2) (beats_irrefl _ _)
        · rcases List.mem_cons.mp hm2 with rfl | hm2
          · exact Nat.le_refl _
          · have hmp : (m :: post).Pairwise (· < ·) := by
              have h1 : (pre ++ m :: post).Pairwise (· < ·) :=
                (List.pairwise_cons.mp (hsplit ▸ hpw)).2
              exact h1.sublist (List.sublist_append_right pre (m :: post))
            exact Nat.le_of_lt ((List.pairwise_cons.mp hmp).1 m2 hm2)

theorem minimax_selectMove_first_best_witness :
    getAvailableMoves [some Player.X, some Player.O, none, none] ≠ [] ∧
    ∃ m ∈ getAvailableMoves [some Player.X, some Player.O, none, none],
      MinimaxAgent.selectMove [some Player.X, some Player.O, none, none] Player.X = (m : Int) ∧
      (∀ m2 ∈ getAvailableMoves [some Player.X, some Player.O, none, none],
        ¬ beats (Player.X == Player.O)
          (minimax (setCell [some Player.X, some Player.O, none, none] m2 Player.X)
            (!(Player.X == Player.O)) 0)
          (minimax (setCell [some Player.X, some Player.O, none, none] m Player.X)
            (!(Player.X == Player.O)) 0)) ∧
      (∀ m2 ∈ getAvailableMoves [some Player.X, some Player.O, none, none],
        minimax (setCell [some Player.X, some Player.O, none, none] m2 Player.X)
          (!(Player.X == Player.O)) 0
          = minimax (setCell [some Player.X, some Player.O, none, none] m Player.X)
            (!(Player.X == Player.O)) 0 → m ≤ m2) ∧
      MinimaxAgent.selectMove [some Player.X, some Player.O, none, none] Player.X
        = MinimaxAgent.selectMove [some Player.X, some Player.O, none, none] Player.X :=
  ⟨by decide,
    minimax_selectMove_first_best [some Player.X, some Player.O, none, none] Player.X (by decide)⟩

/-- Claim C6: on `[X, X, _, O, O, _, _, _, _]` with X to move, minimax
`selectMove` returns cell index 2 — the move completing X's top row. -/
theorem minimax_scenario2_selects_2 :
    MinimaxAgent.selectMove
      [some Player.X, some Player.X, none, some Player.O, some Player.O, none, none, none, none]
      Player.X = 2 := by decide


/- ------------------------------------------------------------------ -/
/- MCTS agent: data model.                                             -/
/- ------------------------------------------------------------------ -/

/-- JS `MCTSNode`.  The JS object carries a non-owning `parent` pointer;
    the embedding represents the tree by ownership only (children lists)
    and addresses nodes by paths of child indices from the root, so the
    walk `current = current.parent` of `backpropagate` becomes recursion
    along such a path.  `wins` is rational because draws add `0.5`. -/
inductive MCTSNode : Type where
  | mk (board : Board) (playerToMove : Player) (move : Option Nat)
       (wins : Rat) (visits : Nat) (children : List MCTSNode)
       (unexploredMoves : List Nat) : MCTSNode

namespace MCTSNode

def board : MCTSNode -> Board
  | .mk b _ _ _ _ _ _ => b

def playerToMove : MCTSNode -> Player
  | .mk _ p _ _ _ _ _ => p

def move : MCTSNode -> Option Nat
  | .mk _ _ m _ _ _ _ => m

def wins : MCTSNode -> Rat
  | .mk _ _ _ w _ _ _ => w

def visits : MCTSNode -> Nat
  | .mk _ _ _ _ v _ _ => v

def children : MCTSNode -> List MCTSNode
  | .mk _ _ _ _ _ cs _ => cs

def unexploredMoves : MCTSNode -> List Nat
  | .mk _ _ _ _ _ _ u => u

/-- The increments `current.visits++` / `current.wins += c` of
    JS `backpropagate` applied to one node. -/
def bump : MCTSNode -> Rat -> MCTSNode
  | .mk b p m w v cs u, c => .mk b p m (w + c) (v + 1) cs u

def setChildren : MCTSNode -> List MCTSNode -> MCTSNode
  | .mk b p m w v _ u, cs => .mk b p m w v cs u

/-- The JS `MCTSNode` constructor: copies the board, starts with zero
    wins and visits, no children, and all available moves unexplored. -/
def make (board : Board) (playerToMove : Player) (move : Option Nat) : MCTSNode :=
  .mk board playerToMove move 0 0 [] (getAvailableMoves board)

@[simp] theorem board_mk (b p m w v cs u) : (MCTSNode.mk b p m w v cs u).board = b := rfl
@[simp] theorem playerToMove_mk (b p m w v cs u) :
    (MCTSNode.mk b p m w v cs u).playerToMove = p := rfl
@[simp] theorem move_mk (b p m w v cs u) : (MCTSNode.mk b p m w v cs u).move = m := rfl
@[simp] theorem wins_mk (b p m w v cs u) : (MCTSNode.mk b p m w v cs u).wins = w := rfl
@[simp] theorem visits_mk (b p m w v cs u) : (MCTSNode.mk b p m w v cs u).visits = v := rfl
@[simp] theorem children_mk (b p m w v cs u) :
    (MCTSNode.mk b p m w v cs u).children = cs := rfl
@[simp] theorem unexploredMoves_mk (b p m w v cs u) :
    (MCTSNode.mk b p m w v cs u).unexploredMoves = u := rfl

@[simp] theorem board_bump (n : MCTSNode) (c : Rat) : (n.bump c).board = n.board := by
  cases n; rfl
@[simp] theorem playerToMove_bump (n : MCTSNode) (c : Rat) :
    (n.bump c).playerToMove = n.playerToMove := by cases n; rfl
@[simp] theorem move_bump (n : MCTSNode) (c : Rat) : (n.bump c).move = n.move := by
  cases n; rfl
@[simp] theorem wins_bump (n : MCTSNode) (c : Rat) : (n.bump c).wins = n.wins + c := by
  cases n; rfl
@[simp] theorem visits_bump (n : MCTSNode) (c : Rat) : (n.bump c).visits = n.visits + 1 := by
  cases n; rfl
@[simp] theorem children_bump (n : MCTSNode) (c : Rat) : (n.bump c).children = n.children := by
  cases n; rfl
@[simp] theorem unexploredMoves_bump (n : MCTSNode) (c : Rat) :
    (n.bump c).unexploredMoves = n.unexploredMoves := by cases n; rfl

@[simp] theorem board_setChildren (n : MCTSNode) (cs : List MCTSNode) :
    (n.setChildren cs).board = n.board := by cases n; rfl
@[simp] theorem playerToMove_setChildren (n : MCTSNode) (cs : List MCTSNode) :
    (n.setChildren cs).playerToMove = n.playerToMove := by cases n; rfl
@[simp] theorem move_setChildren (n : MCTSNode) (cs : List MCTSNode) :
    (n.setChildren cs).move = n.move := by cases n; rfl
@[simp] theorem wins_setChildren (n : MCTSNode) (cs : List MCTSNode) :
    (n.setChildren cs).wins = n.wins := by cases n; rfl
@[simp] theorem visits_setChildren (n : MCTSNode) (cs : List MCTSNode) :
    (n.setChildren cs).visits = n.visits := by cases n; rfl
@[simp] theorem children_setChildren (n : MCTSNode) (cs : List MCTSNode) :
    (n.setChildren cs).children = cs := by cases n; rfl
@[simp] theorem unexploredMoves_setChildren (n : MCTSNode) (cs : List MCTSNode) :
    (n.setChildren cs).unexploredMoves = n.unexploredMoves := by cases n; rfl

/-- JS `MCTSNode.getUCTScore` with the default exploration constant
    `c = Math.sqrt(2)`.  `parentVisits` is the visit count of the node's
    parent (during selection the parent is the node whose children are
    being compared; the JS `!this.parent` guard only concerns the root,
    which is never scored, and likewise returns `Infinity`).  The JS
    `Infinity` result is the top element of `EReal`. -/
noncomputable def getUCTScore (wins : Rat) (visits parentVisits : Nat) : EReal :=
  if visits = 0 then ⊤
  else if parentVisits = 0 then ⊤
  else (((wins : Real) / (visits : Real)
    + Real.sqrt 2 * Real.sqrt (Real.log (parentVisits : Real) / (visits : Real)) : Real) : EReal)

end MCTSNode

/-- Look a node up by its path of child indices from the root. -/
def getNode? : MCTSNode -> List Nat -> Option MCTSNode
  | n, [] => some n
  | n, i :: rest =>
    match nth n.children i with
    | some c => getNode? c rest
    | none => none

/-- Rebuild the tree with the node at `path` replaced by `f` of itself
    (the pure-counterpart of mutating a node reached through parent
    pointers; an out-of-range index leaves the tree unchanged). -/
def updateAt : MCTSNode -> List Nat -> (MCTSNode -> MCTSNode) -> MCTSNode
  | n, [], f => f n
  | n, i :: rest, f =>
    n.setChildren (modifyAt n.children i (fun c => updateAt c rest f))

def visitsAt (t : MCTSNode) (q : List Nat) : Option Nat :=
  (getNode? t q).map MCTSNode.visits

def winsAt (t : MCTSNode) (q : List Nat) : Option Rat :=
  (getNode? t q).map MCTSNode.wins

/- ------------------------------------------------------------------ -/
/- MCTS agent: operations.                                             -/
/- ------------------------------------------------------------------ -/

namespace MCTS_Agent

/-- JS `unexploredMoves.pop()`: removes and returns the last element.
    `popLast l = some (rest, x)` exactly when `l = rest ++ [x]`. -/
def popLast : List Nat -> Option (List Nat × Nat)
  | [] => none
  | [x] => some ([], x)
  | x :: y :: xs =>
    match popLast (y :: xs) with
    | some (rest, last) => some (x :: rest, last)
    | none => none

/-- The child node JS `expandNode` constructs: the popped move is applied
    to a copy of the node's board as the marker of `playerWhoMoved`,
    which the source computes as the OPPOSITE of `node.playerToMove`,
    and the child's player to move is `other playerWhoMoved`, i.e. the
    node's own `playerToMove` again. -/
def expandChild (n : MCTSNode) : Option MCTSNode :=
  match popLast n.unexploredMoves with
  | none => none
  | some (_, move) =>
    let playerWhoMoved := other n.playerToMove
    let newBoard := setCell n.board move playerWhoMoved
    let nextPlayerToMove := other playerWhoMoved
    some (MCTSNode.make newBoard nextPlayerToMove (some move))

/-- The update JS `expandNode` performs on the expanded node itself:
    pop the move from `unexploredMoves` and append the new child. -/
def expandUpd (n : MCTSNode) : MCTSNode :=
  match popLast n.unexploredMoves with
  | none => n
  | some (rest, move) =>
    let playerWhoMoved := other n.playerToMove
    let newBoard := setCell n.board move playerWhoMoved
    let nextPlayerToMove := other playerWhoMoved
    (MCTSNode.mk n.board n.playerToMove n.move n.wins n.visits
      (n.children ++ [MCTSNode.make newBoard nextPlayerToMove (some move)]) rest)

/-- The evaluation JS uses from the fixed O-perspective: `+1` if O won,
    `-1` if X won, `0` otherwise (end of `rollout`, and the terminal
    branch of the `selectMove` iteration loop). -/
def boardResult (board : Board) : Int :=
  match checkWin board with
  | some Player.O => 1
  | some Player.X => -1
  | none => 0

/-- The body of the JS scan in `selectNode` choosing the child with the
    maximal UCT score (`score > bestScore`, first maximum kept), started
    from `bestScore = -Infinity`, `bestChild = null`; returns the index
    of the chosen child.  `pv` is the current node's visit count (the
    children's parent). -/
noncomputable def bcAux (pv : Nat) : List MCTSNode -> Nat -> EReal -> Option Nat -> Option Nat
  | [], _, _, bi => bi
  | c :: cs, i, bs, bi =>
    let score := MCTSNode.getUCTScore c.wins c.visits pv
    if bs < score then bcAux pv cs (i + 1) score (some i)
    else bcAux pv cs (i + 1) bs bi

noncomputable def bestChildIdx (n : MCTSNode) : Option Nat :=
  bcAux n.visits n.children 0 ⊥ none

/-- JS `MCTS_Agent.selectNode` as the path it descends: while the node
    has no unexplored moves and at least one child, move to the child of
    maximal UCT score.  The `none` fall-throughs are unreachable (every
    child's score exceeds `-Infinity`, and the scan picks an in-range
    index); fuel bounds the descent depth, each loop-built tree being
    descended with fuel exceeding its height. -/
noncomputable def selectNodePath : Nat -> MCTSNode -> List Nat
  | 0, _ => []
  | fuel + 1, n =>
    if n.unexploredMoves.length = 0 ∧ 0 < n.children.length then
      match bestChildIdx n with
      | some i =>
        match nth n.children i with
        | some c => i :: selectNodePath fuel c
        | none => []
      | none => []
    else []

/-- JS `MCTS_Agent.rollout` loop: play uniformly random legal moves
    alternately until the board is terminal; `rnd` supplies the random
    draws (`rnd k % moves.length` standing for
    `Math.floor(Math.random() * moves.length)`).  One fuel unit per
    placed marker; the wrapper supplies `emptyCount board + 1`, enough
    for the loop to reach a full board. -/
def rolloutGo : Nat -> Board -> Player -> (Nat -> Nat) -> Nat -> Int
  | 0, board, _, _, _ => boardResult board
  | fuel + 1, board, turn, rnd, k =>
    if checkWin board = none ∧ checkTie board = false then
      let moves := getAvailableMoves board
      if moves.length = 0 then boardResult board
      else rolloutGo fuel (setCell board (moves.getD (rnd k % moves.length) 0) turn)
        (other turn) rnd (k + 1)
    else boardResult board

/-- JS `MCTS_Agent.rollout`. -/
def rollout (board : Board) (turn : Player) (rnd : Nat -> Nat) : Int :=
  rolloutGo (emptyCount board + 1) board turn rnd 0

/-- The local perspective sign JS `backpropagate` computes from a parent:
    `parent.playerToMove === PLAYER_O ? 1 : -1`. -/
def perspSign (p : Player) : Int :=
  if p = Player.O then 1 else -1

/-- The win-credit one `backpropagate` step adds:
    1 if `result * playerPerspective === 1`, 0.5 on a draw, else 0. -/
def credit (result persp : Int) : Rat :=
  if result * persp = 1 then 1 else if result = 0 then 1 / 2 else 0

/-- JS `MCTS_Agent.backpropagate`, walking the path from the root down
    to the starting node instead of parent pointers up from it (the same
    nodes are updated; a node's perspective depends only on its parent's
    `playerToMove`, which the walk never changes).  `persp` is the
    perspective of the node itself (`1` for the root, which has no
    parent). -/
def backpropagate (result : Int) : MCTSNode -> Int -> List Nat -> MCTSNode
  | n, persp, [] => n.bump (credit result persp)
  | n, persp, i :: rest =>
    (n.bump (credit result persp)).setChildren
      (modifyAt n.children i
        (fun c => backpropagate result c (perspSign n.playerToMove) rest))

/-- One iteration of the `selectMove` loop of JS `MCTS_Agent`:
    select a node, then either backpropagate the terminal outcome
    directly, or expand one child, roll out from it, and backpropagate
    the rollout result from the new child. -/
noncomputable def mctsStep (rnd : Nat -> Nat) (root : MCTSNode) : MCTSNode :=
  let path := selectNodePath (emptyCount root.board + 1) root
  match getNode? root path with
  | none => root
  | some n =>
    if checkWin n.board = none ∧ checkTie n.board = false then
      match expandChild n with
      | some child =>
        let result := rollout child.board child.playerToMove rnd
        backpropagate result (updateAt root path expandUpd) 1
          (path ++ [n.children.length])
      | none => root
    else
      backpropagate (boardResult n.board) root 1 path

/-- The `for (let i = 0; i < iterations; i++)` loop. -/
noncomputable def mctsIterate (rnd : Nat -> Nat -> Nat) (root : MCTSNode) : Nat -> MCTSNode
  | 0 => root
  | i + 1 => mctsStep (rnd i) (mctsIterate rnd root i)

/-- The final scan of JS `selectMove` over the root's children: highest
    win rate wins, ties broken by higher visit count; children with zero
    visits are skipped.  `br = none` is the initial `-Infinity` best
    ratio, `bm` the best move so far (`none` for the initial `-1`),
    `mv` the visit count of the best child (initially `-1`). -/
def fsAux : List MCTSNode -> Option Rat -> Option Nat -> Int -> Option Nat
  | [], _, bm, _ => bm
  | c :: cs, br, bm, mv =>
    if c.visits = 0 then fsAux cs br bm mv
    else
      let ratio : Rat := c.wins / (c.visits : Rat)
      match br with
      | none => fsAux cs (some ratio) c.move (c.visits : Int)
      | some b =>
        if b < ratio then fsAux cs (some ratio) c.move (c.visits : Int)
        else if ratio = b ∧ mv < (c.visits : Int) then fsAux cs (some b) c.move (c.visits : Int)
        else fsAux cs br bm mv

/-- JS `MCTS_Agent.selectMove` for a given iteration budget and random
    source.  The JS fallback `getAvailableMoves(board)[0]` on an empty
    list is `undefined`; the embedding returns `none` in that case
    (`head?`), which is the agent's no-move sentinel. -/
noncomputable def selectMove (board : Board) (player : Player) (iterations : Nat)
    (rnd : Nat -> Nat -> Nat) : Option Nat :=
  let root := MCTSNode.make board player none
  let t := mctsIterate rnd root iterations
  match fsAux t.children none none (-1) with
  | some m => some m
  | none => (getAvailableMoves board).head?

end MCTS_Agent


/- ------------------------------------------------------------------ -/
/- Concrete evaluations of the MCTS operations.                        -/
/- ------------------------------------------------------------------ -/

/-- Claim C1: the spec says the popped move is applied as the marker of
the node's own player-to-move and the child's player-to-move is the
opposite player.  Evaluating `expandNode` on a root for the empty board
with X to move shows the code does the reverse: the popped move 8 is
placed as O's marker (the opposite of the node's player-to-move), and
the created child's player-to-move is X again (the same as the node's). -/
theorem expandNode_uses_opposite_marker_eval :
    (MCTS_Agent.expandChild (MCTSNode.make (List.replicate 9 (none : Cell)) Player.X none)).map
        (fun c => (c.move, cellAt c.board 8, c.playerToMove))
      = some (some 8, some Player.O, Player.X) := by decide

/-- Claim C2: one MCTS iteration on `[_,X,X,_,_,_,O,O,_]` with X to move.
The expansion pops move 8 and (because of the expansion bug) places O
there, so the player who chose the move leading into the new child is O,
and O wins on the resulting board (the rollout returns +1).  The claim
says the child's win-credit increment reflects the outcome for the
player who chose the move leading into it, i.e. 1.0 for the winner O;
the code instead credits by the parent's `playerToMove` (X), adding
`credit 1 (perspSign X) = 0` where the mover's perspective would add
`credit 1 (perspSign O) = 1`. -/
theorem backpropagate_credit_divergence_eval :
    (getNode? (MCTS_Agent.mctsIterate (fun _ _ => 0)
        (MCTSNode.make
          [none, some Player.X, some Player.X, none, none, none,
            some Player.O, some Player.O, none] Player.X none) 1) [0]).map
        (fun c => (c.move, cellAt c.board 8, checkWin c.board, c.visits, c.playerToMove))
      = some (some 8, some Player.O, some Player.O, 1, Player.X) ∧
    (MCTS_Agent.mctsIterate (fun _ _ => 0)
        (MCTSNode.make
          [none, some Player.X, some Player.X, none, none, none,
            some Player.O, some Player.O, none] Player.X none) 1).playerToMove = Player.X ∧
    MCTS_Agent.rollout
        (setCell
          [none, some Player.X, some Player.X, none, none, none,
            some Player.O, some Player.O, none] 8 Player.O) Player.X (fun _ => 0) = 1 ∧
    MCTS_Agent.credit 1 (MCTS_Agent.perspSign Player.X) = 0 ∧
    MCTS_Agent.credit 1 (MCTS_Agent.perspSign Player.O) = 1 := by decide

/-- Claim C8 (counterexample): two MCTS iterations on a board X has
already won.  Both iterations select the root (it still has unexplored
moves), hit the terminal branch, and backpropagate directly from the
root, so the root is directly sampled twice: its visit count becomes 2
while it has no children, violating the claimed invariant
`visits = sum of children visits + 1 if ever directly sampled`. -/
theorem mcts_visits_sum_counterexample :
    (MCTS_Agent.mctsIterate (fun _ _ => 0)
        (MCTSNode.make
          [some Player.X, some Player.X, some Player.X, some Player.O, some Player.O,
            none, none, none, none] Player.O none) 2).visits = 2 ∧
    (MCTS_Agent.mctsIterate (fun _ _ => 0)
        (MCTSNode.make
          [some Player.X, some Player.X, some Player.X, some Player.O, some Player.O,
            none, none, none, none] Player.O none) 2).children.length = 0 ∧
    (MCTS_Agent.mctsIterate (fun _ _ => 0)
        (MCTSNode.make
          [some Player.X, some Player.X, some Player.X, some Player.O, some Player.O,
            none, none, none, none] Player.O none) 2).visits ≠
      ((MCTS_Agent.mctsIterate (fun _ _ => 0)
        (MCTSNode.make
          [some Player.X, some Player.X, some Player.X, some Player.O, some Player.O,
            none, none, none, none] Player.O none) 2).children.map MCTSNode.visits).sum + 1 := by
  decide


/- ------------------------------------------------------------------ -/
/- Backpropagation accounting.                                         -/
/- ------------------------------------------------------------------ -/

/-- Claim C8 (amended): one call to `backpropagate` increments the visit
count by exactly one at the starting node and at every one of its
ancestors up to the root — the nodes whose paths are prefixes of the
backpropagation path — and leaves every other node's visit count
unchanged.  (The original claim's summary `visits = sum of children
visits + 1 if ever directly sampled` fails when a node is directly
sampled more than once, see the counterexample.) -/
theorem backpropagate_visit_accounting (result : Int) :
    ∀ (path : List Nat) (n : MCTSNode) (persp : Int) (q : List Nat),
      visitsAt (MCTS_Agent.backpropagate result n persp path) q
        = (visitsAt n q).map (fun v => if q.isPrefixOf path then v + 1 else v) := by
  intro path
  induction path with
  | nil =>
    intro n persp q
    cases q with
    | nil =>
      simp [MCTS_Agent.backpropagate, visitsAt, getNode?, List.isPrefixOf]
    | cons i r =>
      have hch : getNode? (n.bump (MCTS_Agent.credit result persp)) (i :: r)
          = getNode? n (i :: r) := by
        simp only [getNode?, MCTSNode.children_bump]
      simp only [MCTS_Agent.backpropagate, visitsAt, hch, List.isPrefixOf]
      cases getNode? n (i :: r) <;> simp
  | cons j prest ih =>
    intro n persp q
    cases q with
    | nil =>
      simp [MCTS_Agent.backpropagate, visitsAt, getNode?, List.isPrefixOf]
    | cons i r =>
      simp only [MCTS_Agent.backpropagate, visitsAt, getNode?,
        MCTSNode.children_setChildren, MCTSNode.children_bump]
      rw [nth_modifyAt]
      by_cases hij : i = j
      · subst hij
        rw [if_pos rfl]
        cases hc : nth n.children i with
        | none => simp [List.isPrefixOf]
        | some c =>
          simp only [Option.map_some']
          have := ih c (MCTS_Agent.perspSign n.playerToMove) r
          simp only [visitsAt] at this
          rw [this]
          simp [List.isPrefixOf]
      · rw [if_neg hij]
        have hpre : (i :: r).isPrefixOf (j :: prest) = false := by
          simp [List.isPrefixOf, hij]
        rw [hpre]
        cases hc : nth n.children i with
        | none => simp
        | some c =>
          have hfun : (fun v : Nat => if false = true then v + 1 else v) = fun v : Nat => v := by
            funext v; simp
          rw [hfun]
          show Option.map MCTSNode.visits (getNode? c r)
              = Option.map (fun v => v) (Option.map MCTSNode.visits (getNode? c r))
          cases getNode? c r <;> rfl


/- ------------------------------------------------------------------ -/
/- Wins/visits invariants.                                             -/
/- ------------------------------------------------------------------ -/

theorem credit_cases (r p : Int) :
    MCTS_Agent.credit r p = 0 ∨ MCTS_Agent.credit r p = 1 / 2 ∨ MCTS_Agent.credit r p = 1 := by
  unfold MCTS_Agent.credit
  by_cases h1 : r * p = 1
  · simp [h1]
  · by_cases h2 : r = 0 <;> simp [h1, h2]

theorem credit_nonneg (r p : Int) : 0 ≤ MCTS_Agent.credit r p := by
  rcases credit_cases r p with h | h | h <;> rw [h] <;> norm_num

theorem credit_le_one (r p : Int) : MCTS_Agent.credit r p ≤ 1 := by
  rcases credit_cases r p with h | h | h <;> rw [h] <;> norm_num

/-- Stats effect of one backpropagation: every node of the resulting tree
comes from the same position of the input tree, with wins and visits
either untouched or increased by a credit in {0, 1/2, 1} and by 1. -/
theorem backprop_stats (result : Int) :
    ∀ (path : List Nat) (n : MCTSNode) (persp : Int) (q : List Nat) (m2 : MCTSNode),
      getNode? (MCTS_Agent.backpropagate result n persp path) q = some m2 →
      ∃ m, getNode? n q = some m ∧
        ((m2.wins = m.wins ∧ m2.visits = m.visits) ∨
          (∃ c, (c = 0 ∨ c = 1 / 2 ∨ c = 1) ∧ m2.wins = m.wins + c ∧ m2.visits = m.visits + 1)) := by
  intro path
  induction path with
  | nil =>
    intro n persp q m2 h
    cases q with
    | nil =>
      refine ⟨n, rfl, Or.inr ⟨MCTS_Agent.credit result persp, credit_cases _ _, ?_, ?_⟩⟩
      · have : m2 = n.bump (MCTS_Agent.credit result persp) := by
          simpa [MCTS_Agent.backpropagate, getNode?] using h.symm
        simp [this]
      · have : m2 = n.bump (MCTS_Agent.credit result persp) := by
          simpa [MCTS_Agent.backpropagate, getNode?] using h.symm
        simp [this]
    | cons i r =>
      have hch : getNode? (n.bump (MCTS_Agent.credit result persp)) (i :: r)
          = getNode? n (i :: r) := by
        simp only [getNode?, MCTSNode.children_bump]
      rw [MCTS_Agent.backpropagate] at h
      rw [hch] at h
      exact ⟨m2, h, Or.inl ⟨rfl, rfl⟩⟩
  | cons j prest ih =>
    intro n persp q m2 h
    cases q with
    | nil =>
      simp only [MCTS_Agent.backpropagate, getNode?, Option.some_inj] at h
      refine ⟨n, rfl, Or.inr ⟨MCTS_Agent.credit result persp, credit_cases _ _, ?_, ?_⟩⟩
      · rw [← h]; simp
      · rw [← h]; simp
    | cons i r =>
      simp only [MCTS_Agent.backpropagate, getNode?,
        MCTSNode.children_setChildren, MCTSNode.children_bump] at h
      rw [nth_modifyAt] at h
      by_cases hij : i = j
      · subst hij
        rw [if_pos rfl] at h
        cases hc : nth n.children i with
        | none => rw [hc] at h; simp at h
        | some c =>
          rw [hc] at h
          simp only [Option.map_some'] at h
          obtain ⟨m, hm, hrel⟩ := ih c (MCTS_Agent.perspSign n.playerToMove) r m2 h
          exact ⟨m, by simp only [getNode?, hc]; exact hm, hrel⟩
      · rw [if_neg hij] at h
        refine ⟨m2, ?_, Or.inl ⟨rfl, rfl⟩⟩
        simp only [getNode?]
        cases hc : nth n.children i with
        | none => rw [hc] at h; simp at h
        | some c => rw [hc] at h; exact h

theorem nth_append_single {α : Type _} (l : List α) (x : α) (i : Nat) :
    nth (l ++ [x]) i
      = if i < l.length then nth l i else if i = l.length then some x else none := by
  induction l generalizing i with
  | nil =>
    cases i with
    | zero => simp [nth]
    | succ i => simp [nth]
  | cons y ys ihl =>
    cases i with
    | zero => simp [nth]
    | succ i =>
      have hl : nth ((y :: ys) ++ [x]) (i + 1) = nth (ys ++ [x]) i := rfl
      rw [hl, ihl i]
      by_cases h1 : i < ys.length
      · rw [if_pos h1, if_pos (by simp only [List.length_cons]; omega)]
        rfl
      · by_cases h2 : i = ys.length
        · rw [if_neg h1, if_pos h2, if_neg (by simp only [List.length_cons]; omega),
            if_pos (by simp only [List.length_cons]; omega)]
        · rw [if_neg h1, if_neg h2, if_neg (by simp only [List.length_cons]; omega),
            if_neg (by simp only [List.length_cons]; omega)]

/-- Stats effect of the expansion update: every node either comes from
the same position of the input tree with identical wins and visits, or
is the freshly created child with zero wins and visits. -/
theorem expandUpd_stats (t : MCTSNode) :
    ∀ (q : List Nat) (m2 : MCTSNode),
      getNode? (MCTS_Agent.expandUpd t) q = some m2 →
      (∃ m, getNode? t q = some m ∧ m2.wins = m.wins ∧ m2.visits = m.visits) ∨
        (m2.wins = 0 ∧ m2.visits = 0) := by
  intro q m2 h
  unfold MCTS_Agent.expandUpd at h
  cases hpop : MCTS_Agent.popLast t.unexploredMoves with
  | none => rw [hpop] at h; exact Or.inl ⟨m2, h, rfl, rfl⟩
  | some pm =>
    rw [hpop] at h
    cases q with
    | nil =>
      simp only [getNode?, Option.some_inj] at h
      refine Or.inl ⟨t, rfl, ?_, ?_⟩ <;> rw [← h] <;> simp
    | cons i r =>
      simp only [getNode?, MCTSNode.children_mk] at h
      rw [nth_append_single] at h
      by_cases h1 : i < t.children.length
      · rw [if_pos h1] at h
        refine Or.inl ⟨m2, ?_, rfl, rfl⟩
        simp only [getNode?]
        cases hc : nth t.children i with
        | none => rw [hc] at h; simp at h
        | some c => rw [hc] at h; exact h
      · rw [if_neg h1] at h
        by_cases h2 : i = t.children.length
        · rw [if_pos h2] at h
          cases r with
          | nil =>
            simp only [getNode?, Option.some_inj] at h
            refine Or.inr ⟨?_, ?_⟩ <;> rw [← h] <;> simp [MCTSNode.make]
          | cons i2 r2 =>
            simp only [getNode?, MCTSNode.make, MCTSNode.children_mk] at h
            simp [nth] at h
        · rw [if_neg h2] at h; simp at h

/-- Stats effect of `updateAt` with a stats-respecting update. -/
theorem updateAt_stats (f : MCTSNode → MCTSNode)
    (hf : ∀ (c : MCTSNode) (q : List Nat) (m2 : MCTSNode), getNode? (f c) q = some m2 →
      (∃ m, getNode? c q = some m ∧ m2.wins = m.wins ∧ m2.visits = m.visits) ∨
        (m2.wins = 0 ∧ m2.visits = 0)) :
    ∀ (path : List Nat) (t : MCTSNode) (q : List Nat) (m2 : MCTSNode),
      getNode? (updateAt t path f) q = some m2 →
      (∃ m, getNode? t q = some m ∧ m2.wins = m.wins ∧ m2.visits = m.visits) ∨
        (m2.wins = 0 ∧ m2.visits = 0) := by
  intro path
  induction path with
  | nil => intro t q m2 h; exact hf t q m2 h
  | cons j prest ih =>
    intro t q m2 h
    cases q with
    | nil =>
      simp only [updateAt, getNode?, Option.some_inj] at h
      refine Or.inl ⟨t, rfl, ?_, ?_⟩ <;> rw [← h] <;> simp
    | cons i r =>
      simp only [updateAt, getNode?, MCTSNode.children_setChildren] at h
      rw [nth_modifyAt] at h
      by_cases hij : i = j
      · subst hij
        rw [if_pos rfl] at h
        cases hc : nth t.children i with
        | none => rw [hc] at h; simp at h
        | some c =>
          rw [hc] at h
          simp only [Option.map_some'] at h
          rcases ih c r m2 h with ⟨m, hm, hrel⟩ | hfresh
          · exact Or.inl ⟨m, by simp only [getNode?, hc]; exact hm, hrel⟩
          · exact Or.inr hfresh
      · rw [if_neg hij] at h
        refine Or.inl ⟨m2, ?_, rfl, rfl⟩
        simp only [getNode?]
        cases hc : nth t.children i with
        | none => rw [hc] at h; simp at h
        | some c => rw [hc] at h; exact h

/-- The per-node wins/visits bound maintained by every MCTS iteration. -/
def StatsInv (t : MCTSNode) : Prop :=
  ∀ q m, getNode? t q = some m → 0 ≤ m.wins ∧ m.wins ≤ (m.visits : Rat)

theorem statsInv_backprop (result persp : Int) (path : List Nat) (t : MCTSNode)
    (h : StatsInv t) : StatsInv (MCTS_Agent.backpropagate result t persp path) := by
  intro q m2 hq
  obtain ⟨m, hm, hrel⟩ := backprop_stats result path t persp q m2 hq
  have hb := h q m hm
  rcases hrel with ⟨hw, hv⟩ | ⟨c, hc, hw, hv⟩
  · rw [hw, hv]; exact hb
  · constructor
    · rw [hw]
      have : (0 : Rat) ≤ c := by rcases hc with rfl | rfl | rfl <;> norm_num
      linarith [hb.1]
    · rw [hw, hv]
      have hc1 : c ≤ 1 := by rcases hc with rfl | rfl | rfl <;> norm_num
      push_cast
      linarith [hb.2]

theorem statsInv_expand (path : List Nat) (t : MCTSNode) (h : StatsInv t) :
    StatsInv (updateAt t path MCTS_Agent.expandUpd) := by
  intro q m2 hq
  rcases updateAt_stats MCTS_Agent.expandUpd (fun c => expandUpd_stats c) path t q m2 hq
    with ⟨m, hm, hw, hv⟩ | ⟨hw, hv⟩
  · rw [hw, hv]; exact h q m hm
  · rw [hw, hv]; norm_num

theorem statsInv_step (rnd : Nat → Nat) (t : MCTSNode) (h : StatsInv t) :
    StatsInv (MCTS_Agent.mctsStep rnd t) := by
  simp only [MCTS_Agent.mctsStep]
  cases hget : getNode? t (MCTS_Agent.selectNodePath (emptyCount t.board + 1) t) with
  | none => exact h
  | some n =>
    dsimp only
    by_cases hterm : checkWin n.board = none ∧ checkTie n.board = false
    · rw [if_pos hterm]
      cases hec : MCTS_Agent.expandChild n with
      | none => exact h
      | some child =>
        dsimp only
        exact statsInv_backprop _ _ _ _ (statsInv_expand _ _ h)
    · rw [if_neg hterm]
      exact statsInv_backprop _ _ _ _ h

theorem statsInv_make (b : Board) (p : Player) (mv : Option Nat) :
    StatsInv (MCTSNode.make b p mv) := by
  intro q m hq
  cases q with
  | nil =>
    simp only [getNode?, Option.some_inj] at hq
    rw [← hq]
    simp [MCTSNode.make]
  | cons i r =>
    simp only [getNode?, MCTSNode.make, MCTSNode.children_mk, nth] at hq
    exact Option.noConfusion hq

theorem statsInv_iterate (rnd : Nat → Nat → Nat) (b : Board) (p : Player) (k : Nat) :
    StatsInv (MCTS_Agent.mctsIterate rnd (MCTSNode.make b p none) k) := by
  induction k with
  | zero => exact statsInv_make b p none
  | succ k ih => exact statsInv_step (rnd k) _ ih

/-- Claim C10: every node of the MCTS tree satisfies
`0 ≤ wins ≤ visits` at all times — each backpropagation step adds a
win-credit of exactly 0, 0.5 or 1 while adding exactly one visit — and
consequently every visited node's win rate `wins / visits` used by the
UCT formula and the final move selection lies in [0, 1]. -/
theorem mcts_wins_within_visits :
    (∀ r p, MCTS_Agent.credit r p = 0 ∨ MCTS_Agent.credit r p = 1 / 2 ∨
      MCTS_Agent.credit r p = 1) ∧
    (∀ (result persp : Int) (path : List Nat) (n : MCTSNode) (q : List Nat)
      (m m2 : MCTSNode),
      getNode? n q = some m →
      getNode? (MCTS_Agent.backpropagate result n persp path) q = some m2 →
      (m2.wins = m.wins ∧ m2.visits = m.visits) ∨
        ∃ c, (c = 0 ∨ c = 1 / 2 ∨ c = 1) ∧ m2.wins = m.wins + c ∧ m2.visits = m.visits + 1) ∧
    (∀ (b : Board) (p : Player) (rnd : Nat → Nat → Nat) (k : Nat) (q : List Nat)
      (m : MCTSNode),
      getNode? (MCTS_Agent.mctsIterate rnd (MCTSNode.make b p none) k) q = some m →
      0 ≤ m.wins ∧ m.wins ≤ (m.visits : Rat) ∧
        (1 ≤ m.visits → 0 ≤ m.wins / (m.visits : Rat) ∧ m.wins / (m.visits : Rat) ≤ 1)) := by
  refine ⟨credit_cases, ?_, ?_⟩
  · intro result persp path n q m m2 hm hm2
    obtain ⟨m3, hm3, hrel⟩ := backprop_stats result path n persp q m2 hm2
    rw [hm] at hm3
    cases hm3
    exact hrel
  · intro b p rnd k q m hq
    have hinv := statsInv_iterate rnd b p k q m hq
    refine ⟨hinv.1, hinv.2, ?_⟩
    intro hv
    have hvpos : (0 : Rat) < (m.visits : Rat) := by
      have : (1 : Rat) ≤ (m.visits : Rat) := by exact_mod_cast hv
      linarith
    constructor
    · exact div_nonneg hinv.1 (le_of_lt hvpos)
    · rw [div_le_one hvpos]
      exact hinv.2

theorem mcts_wins_within_visits_witness :
    getNode? (MCTS_Agent.mctsIterate (fun _ _ => 0)
        (MCTSNode.make [some Player.O, some Player.O, some Player.O, some Player.X,
          some Player.X, none, none, none, none] Player.X none) 2) [] =
      some (MCTS_Agent.mctsIterate (fun _ _ => 0)
        (MCTSNode.make [some Player.O, some Player.O, some Player.O, some Player.X,
          some Player.X, none, none, none, none] Player.X none) 2) ∧
    (0 ≤ (MCTS_Agent.mctsIterate (fun _ _ => 0)
        (MCTSNode.make [some Player.O, some Player.O, some Player.O, some Player.X,
          some Player.X, none, none, none, none] Player.X none) 2).wins ∧
      (MCTS_Agent.mctsIterate (fun _ _ => 0)
        (MCTSNode.make [some Player.O, some Player.O, some Player.O, some Player.X,
          some Player.X, none, none, none, none] Player.X none) 2).wins ≤
        ((MCTS_Agent.mctsIterate (fun _ _ => 0)
          (MCTSNode.make [some Player.O, some Player.O, some Player.O, some Player.X,
            some Player.X, none, none, none, none] Player.X none) 2).visits : Rat) ∧
      (1 ≤ (MCTS_Agent.mctsIterate (fun _ _ => 0)
          (MCTSNode.make [some Player.O, some Player.O, some Player.O, some Player.X,
            some Player.X, none, none, none, none] Player.X none) 2).visits →
        0 ≤ (MCTS_Agent.mctsIterate (fun _ _ => 0)
            (MCTSNode.make [some Player.O, some Player.O, some Player.O, some Player.X,
              some Player.X, none, none, none, none] Player.X none) 2).wins /
          ((MCTS_Agent.mctsIterate (fun _ _ => 0)
            (MCTSNode.make [some Player.O, some Player.O, some Player.O, some Player.X,
              some Player.X, none, none, none, none] Player.X none) 2).visits : Rat) ∧
          (MCTS_Agent.mctsIterate (fun _ _ => 0)
            (MCTSNode.make [some Player.O, some Player.O, some Player.O, some Player.X,
              some Player.X, none, none, none, none] Player.X none) 2).wins /
          ((MCTS_Agent.mctsIterate (fun _ _ => 0)
            (MCTSNode.make [some Player.O, some Player.O, some Player.O, some Player.X,
              some Player.X, none, none, none, none] Player.X none) 2).visits : Rat) ≤ 1)) :=
  ⟨rfl, mcts_wins_within_visits.2.2
    [some Player.O, some Player.O, some Player.O, some Player.X,
      some Player.X, none, none, none, none] Player.X (fun _ _ => 0) 2 [] _ rfl⟩


/- ------------------------------------------------------------------ -/
/- Legality of the MCTS move.                                          -/
/- ------------------------------------------------------------------ -/

theorem mem_modifyAt {α : Type _} (l : List α) (k : Nat) (f : α → α) (x : α)
    (h : x ∈ modifyAt l k f) : x ∈ l ∨ ∃ y ∈ l, x = f y := by
  induction l generalizing k with
  | nil => simp [modifyAt] at h
  | cons z zs ih =>
    cases k with
    | zero =>
      rcases List.mem_cons.mp h with rfl | hx
      · exact Or.inr ⟨z, List.mem_cons_self _ _, rfl⟩
      · exact Or.inl (List.mem_cons_of_mem _ hx)
    | succ k =>
      rcases List.mem_cons.mp h with rfl | hx
      · exact Or.inl (List.mem_cons_self _ _)
      · rcases ih k hx with hx2 | ⟨y, hy, hxy⟩
        · exact Or.inl (List.mem_cons_of_mem _ hx2)
        · exact Or.inr ⟨y, List.mem_cons_of_mem _ hy, hxy⟩

theorem popLast_eq_append :
    ∀ (l : List Nat) (rest : List Nat) (x : Nat),
      MCTS_Agent.popLast l = some (rest, x) → l = rest ++ [x] := by
  intro l
  induction l with
  | nil => intro rest x h; simp [MCTS_Agent.popLast] at h
  | cons a l2 ih =>
    intro rest x h
    cases l2 with
    | nil =>
      simp only [MCTS_Agent.popLast, Option.some_inj, Prod.mk.injEq] at h
      rw [← h.1, ← h.2]
      rfl
    | cons b l3 =>
      simp only [MCTS_Agent.popLast] at h
      cases hp : MCTS_Agent.popLast (b :: l3) with
      | none => rw [hp] at h; exact Option.noConfusion h
      | some pr =>
        obtain ⟨r1, x1⟩ := pr
        rw [hp] at h
        simp only [Option.some_inj, Prod.mk.injEq] at h
        have hih := ih r1 x1 hp
        rw [← h.1, ← h.2, List.cons_append, ← hih]

theorem backprop_top_move (result : Int) (n : MCTSNode) (persp : Int) (path : List Nat) :
    (MCTS_Agent.backpropagate result n persp path).move = n.move := by
  cases path <;> simp [MCTS_Agent.backpropagate]

theorem backprop_top_unexplored (result : Int) (n : MCTSNode) (persp : Int) (path : List Nat) :
    (MCTS_Agent.backpropagate result n persp path).unexploredMoves = n.unexploredMoves := by
  cases path <;> simp [MCTS_Agent.backpropagate]

theorem expandUpd_top_move (n : MCTSNode) : (MCTS_Agent.expandUpd n).move = n.move := by
  unfold MCTS_Agent.expandUpd
  cases MCTS_Agent.popLast n.unexploredMoves <;> simp

theorem updateAt_top_move (f : MCTSNode → MCTSNode) (hf : ∀ c, (f c).move = c.move)
    (path : List Nat) (t : MCTSNode) : (updateAt t path f).move = t.move := by
  cases path with
  | nil => exact hf t
  | cons i r => simp [updateAt]

/-- The root-level invariant giving legality of the returned move: the
root's unexplored moves are legal moves of the original board, and every
root child records a legal move of the original board. -/
def RootInv (board : Board) (t : MCTSNode) : Prop :=
  (∀ m ∈ t.unexploredMoves, m ∈ getAvailableMoves board) ∧
  (∀ c ∈ t.children, ∃ m ∈ getAvailableMoves board, c.move = some m)

theorem rootInv_backprop (board : Board) (result persp : Int) (path : List Nat)
    (t : MCTSNode) (h : RootInv board t) :
    RootInv board (MCTS_Agent.backpropagate result t persp path) := by
  constructor
  · rw [backprop_top_unexplored]
    exact h.1
  · intro c2 hc2
    cases path with
    | nil =>
      rw [MCTS_Agent.backpropagate, MCTSNode.children_bump] at hc2
      exact h.2 c2 hc2
    | cons j rest =>
      rw [MCTS_Agent.backpropagate, MCTSNode.children_setChildren] at hc2
      rcases mem_modifyAt _ _ _ _ hc2 with hc2 | ⟨c, hc, rfl⟩
      · exact h.2 c2 hc2
      · obtain ⟨m, hm, hcm⟩ := h.2 c hc
        exact ⟨m, hm, by rw [backprop_top_move]; exact hcm⟩

theorem rootInv_expandUpd (board : Board) (t : MCTSNode) (h : RootInv board t) :
    RootInv board (MCTS_Agent.expandUpd t) := by
  unfold MCTS_Agent.expandUpd
  cases hpop : MCTS_Agent.popLast t.unexploredMoves with
  | none => exact h
  | some pm =>
    cases pm with
    | mk rest mv =>
      have happ := popLast_eq_append _ _ _ hpop
      constructor
      · intro m hm
        simp only [MCTSNode.unexploredMoves_mk] at hm
        exact h.1 m (happ ▸ List.mem_append_left _ hm)
      · intro c2 hc2
        simp only [MCTSNode.children_mk] at hc2
        rcases List.mem_append.mp hc2 with hc2 | hc2
        · exact h.2 c2 hc2
        · have hc2e : c2 = MCTSNode.make
              (setCell t.board mv (other t.playerToMove)) (other (other t.playerToMove))
              (some mv) := by simpa using hc2
          refine ⟨mv, h.1 mv (happ ▸ List.mem_append_right _ (List.mem_cons_self _ _)), ?_⟩
          rw [hc2e]
          rfl

theorem rootInv_updateAt_expand (board : Board) (path : List Nat) (t : MCTSNode)
    (h : RootInv board t) : RootInv board (updateAt t path MCTS_Agent.expandUpd) := by
  cases path with
  | nil => exact rootInv_expandUpd board t h
  | cons j rest =>
    constructor
    · simp only [updateAt, MCTSNode.unexploredMoves_setChildren]
      exact h.1
    · intro c2 hc2
      simp only [updateAt, MCTSNode.children_setChildren] at hc2
      rcases mem_modifyAt _ _ _ _ hc2 with hc2 | ⟨c, hc, rfl⟩
      · exact h.2 c2 hc2
      · obtain ⟨m, hm, hcm⟩ := h.2 c hc
        exact ⟨m, hm, by rw [updateAt_top_move _ expandUpd_top_move]; exact hcm⟩

theorem rootInv_step (board : Board) (rnd : Nat → Nat) (t : MCTSNode)
    (h : RootInv board t) : RootInv board (MCTS_Agent.mctsStep rnd t) := by
  simp only [MCTS_Agent.mctsStep]
  cases hget : getNode? t (MCTS_Agent.selectNodePath (emptyCount t.board + 1) t) with
  | none => exact h
  | some n =>
    dsimp only
    by_cases hterm : checkWin n.board = none ∧ checkTie n.board = false
    · rw [if_pos hterm]
      cases hec : MCTS_Agent.expandChild n with
      | none => exact h
      | some child =>
        dsimp only
        exact rootInv_backprop _ _ _ _ _ (rootInv_updateAt_expand _ _ _ h)
    · rw [if_neg hterm]
      exact rootInv_backprop _ _ _ _ _ h

theorem rootInv_iterate (board : Board) (p : Player) (rnd : Nat → Nat → Nat) (k : Nat) :
    RootInv board (MCTS_Agent.mctsIterate rnd (MCTSNode.make board p none) k) := by
  induction k with
  | zero =>
    constructor
    · intro m hm
      simpa [MCTS_Agent.mctsIterate, MCTSNode.make] using hm
    · intro c hc
      simp [MCTS_Agent.mctsIterate, MCTSNode.make] at hc
  | succ k ih => exact rootInv_step board (rnd k) _ ih

theorem fsAux_cons (c : MCTSNode) (cs : List MCTSNode) (br : Option Rat)
    (bm : Option Nat) (mv : Int) :
    MCTS_Agent.fsAux (c :: cs) br bm mv
      = if c.visits = 0 then MCTS_Agent.fsAux cs br bm mv
        else
          match br with
          | none => MCTS_Agent.fsAux cs (some (c.wins / (c.visits : Rat))) c.move (c.visits : Int)
          | some b =>
            if b < c.wins / (c.visits : Rat) then
              MCTS_Agent.fsAux cs (some (c.wins / (c.visits : Rat))) c.move (c.visits : Int)
            else if c.wins / (c.visits : Rat) = b ∧ mv < (c.visits : Int) then
              MCTS_Agent.fsAux cs (some b) c.move (c.visits : Int)
            else MCTS_Agent.fsAux cs br bm mv := rfl

theorem fsAux_mem :
    ∀ (cs : List MCTSNode) (br : Option Rat) (bm : Option Nat) (mv : Int),
      MCTS_Agent.fsAux cs br bm mv = bm ∨ ∃ c ∈ cs, MCTS_Agent.fsAux cs br bm mv = c.move := by
  intro cs
  induction cs with
  | nil => intro br bm mv; exact Or.inl rfl
  | cons c cs ih =>
    intro br bm mv
    rw [fsAux_cons]
    by_cases hv : c.visits = 0
    · rw [if_pos hv]
      rcases ih br bm mv with heq | ⟨c2, hc2, heq⟩
      · exact Or.inl heq
      · exact Or.inr ⟨c2, List.mem_cons_of_mem _ hc2, heq⟩
    · rw [if_neg hv]
      cases br with
      | none =>
        dsimp only
        rcases ih (some (c.wins / (c.visits : Rat))) c.move (c.visits : Int)
          with heq | ⟨c2, hc2, heq⟩
        · exact Or.inr ⟨c, List.mem_cons_self _ _, heq⟩
        · exact Or.inr ⟨c2, List.mem_cons_of_mem _ hc2, heq⟩
      | some b =>
        dsimp only
        by_cases hb : b < c.wins / (c.visits : Rat)
        · rw [if_pos hb]
          rcases ih (some (c.wins / (c.visits : Rat))) c.move (c.visits : Int)
            with heq | ⟨c2, hc2, heq⟩
          · exact Or.inr ⟨c, List.mem_cons_self _ _, heq⟩
          · exact Or.inr ⟨c2, List.mem_cons_of_mem _ hc2, heq⟩
        · rw [if_neg hb]
          by_cases htie : c.wins / (c.visits : Rat) = b ∧ mv < (c.visits : Int)
          · rw [if_pos htie]
            rcases ih (some b) c.move (c.visits : Int) with heq | ⟨c2, hc2, heq⟩
            · exact Or.inr ⟨c, List.mem_cons_self _ _, heq⟩
            · exact Or.inr ⟨c2, List.mem_cons_of_mem _ hc2, heq⟩
          · rw [if_neg htie]
            rcases ih (some b) bm mv with heq | ⟨c2, hc2, heq⟩
            · exact Or.inl heq
            · exact Or.inr ⟨c2, List.mem_cons_of_mem _ hc2, heq⟩

/-- Claim C3: for every board and player, MCTS `selectMove` returns a
member of `getAvailableMoves board` whenever that list is non-empty —
for any iteration budget, including 0 or 1, via the fallback to the
first legal move — and returns the no-move sentinel `none` (JS
`undefined`) exactly when there are no legal moves. -/
theorem mcts_selectMove_legal (board : Board) (player : Player) (iterations : Nat)
    (rnd : Nat → Nat → Nat) :
    (getAvailableMoves board ≠ [] →
      ∃ m ∈ getAvailableMoves board,
        MCTS_Agent.selectMove board player iterations rnd = some m) ∧
    (getAvailableMoves board = [] →
      MCTS_Agent.selectMove board player iterations rnd = none) := by
  have hinv := rootInv_iterate board player rnd iterations
  simp only [MCTS_Agent.selectMove]
  cases hfs : MCTS_Agent.fsAux
      (MCTS_Agent.mctsIterate rnd (MCTSNode.make board player none) iterations).children
      none none (-1) with
  | some m =>
    rcases fsAux_mem _ none none (-1) with heq | ⟨c, hc, heq⟩
    · rw [hfs] at heq; exact Option.noConfusion heq
    · rw [hfs] at heq
      obtain ⟨m2, hm2, hcm⟩ := hinv.2 c hc
      rw [hcm] at heq
      have hmm : m = m2 := Option.some.inj heq
      subst hmm
      constructor
      · intro _
        exact ⟨m, hm2, rfl⟩
      · intro hempty
        rw [hempty] at hm2
        simp at hm2
  | none =>
    constructor
    · intro hne
      cases hmov : getAvailableMoves board with
      | nil => exact absurd hmov hne
      | cons i rest => exact ⟨i, List.mem_cons_self _ _, rfl⟩
    · intro hempty
      rw [hempty]
      rfl

theorem mcts_selectMove_legal_witness :
    (getAvailableMoves (List.replicate 9 (none : Cell)) ≠ [] ∧
      ∃ m ∈ getAvailableMoves (List.replicate 9 (none : Cell)),
        MCTS_Agent.selectMove (List.replicate 9 (none : Cell)) Player.X 1 (fun _ _ => 0)
          = some m) ∧
    (getAvailableMoves (List.replicate 9 (some Player.X)) = [] ∧
      MCTS_Agent.selectMove (List.replicate 9 (some Player.X)) Player.O 1 (fun _ _ => 0)
        = none) :=
  ⟨⟨by decide, (mcts_selectMove_legal (List.replicate 9 (none : Cell)) Player.X 1
      (fun _ _ => 0)).1 (by decide)⟩,
   ⟨by decide, (mcts_selectMove_legal (List.replicate 9 (some Player.X)) Player.O 1
      (fun _ _ => 0)).2 (by decide)⟩⟩


/- ------------------------------------------------------------------ -/
/- UCT selection.                                                      -/
/- ------------------------------------------------------------------ -/

theorem nth_lt_length {α : Type _} :
    ∀ (l : List α) (i : Nat) (c : α), nth l i = some c → i < l.length := by
  intro l
  induction l with
  | nil => intro i c h; exact Option.noConfusion h
  | cons x xs ih =>
    intro i c h
    cases i with
    | zero => simp
    | succ i =>
      have := ih i c h
      simp only [List.length_cons]
      omega

theorem getUCTScore_zero_visits (w : Rat) (pv : Nat) :
    MCTSNode.getUCTScore w 0 pv = ⊤ := by
  simp [MCTSNode.getUCTScore]

theorem getUCTScore_formula (w : Rat) (v pv : Nat) (hv : v ≠ 0) (hpv : pv ≠ 0) :
    MCTSNode.getUCTScore w v pv
      = (((w : Real) / (v : Real)
          + Real.sqrt 2 * Real.sqrt (Real.log (pv : Real) / (v : Real)) : Real) : EReal) := by
  simp [MCTSNode.getUCTScore, hv, hpv]

theorem getUCTScore_ne_bot (w : Rat) (v pv : Nat) :
    MCTSNode.getUCTScore w v pv ≠ ⊥ := by
  unfold MCTSNode.getUCTScore
  split_ifs
  · simp
  · simp
  · exact EReal.coe_ne_bot _

theorem getUCTScore_eq_top (w : Rat) (v pv : Nat)
    (h : MCTSNode.getUCTScore w v pv = ⊤) : v = 0 ∨ pv = 0 := by
  by_contra hc
  push_neg at hc
  rw [getUCTScore_formula w v pv hc.1 hc.2] at h
  exact EReal.coe_ne_top _ h

theorem bcAux_cons (pv : Nat) (c : MCTSNode) (cs : List MCTSNode) (i : Nat)
    (bs : EReal) (bi : Option Nat) :
    MCTS_Agent.bcAux pv (c :: cs) i bs bi
      = if bs < MCTSNode.getUCTScore c.wins c.visits pv then
          MCTS_Agent.bcAux pv cs (i + 1) (MCTSNode.getUCTScore c.wins c.visits pv) (some i)
        else MCTS_Agent.bcAux pv cs (i + 1) bs bi := rfl

/-- The `selectNode` child scan returns (when it returns an index) the
first child whose UCT score is maximal among the children. -/
theorem bcAux_spec (pv : Nat) :
    ∀ (cs : List MCTSNode) (i : Nat) (bs : EReal) (bi : Option Nat),
      (MCTS_Agent.bcAux pv cs i bs bi = bi ∧
        ∀ c ∈ cs, MCTSNode.getUCTScore c.wins c.visits pv ≤ bs) ∨
      (∃ k c, nth cs k = some c ∧ MCTS_Agent.bcAux pv cs i bs bi = some (i + k) ∧
        bs < MCTSNode.getUCTScore c.wins c.visits pv ∧
        ∀ c2 ∈ cs, MCTSNode.getUCTScore c2.wins c2.visits pv
          ≤ MCTSNode.getUCTScore c.wins c.visits pv) := by
  intro cs
  induction cs with
  | nil =>
    intro i bs bi
    left
    exact ⟨rfl, by simp⟩
  | cons d cs ih =>
    intro i bs bi
    rw [bcAux_cons]
    by_cases hlt : bs < MCTSNode.getUCTScore d.wins d.visits pv
    · rw [if_pos hlt]
      rcases ih (i + 1) (MCTSNode.getUCTScore d.wins d.visits pv) (some i)
        with ⟨hres, hall⟩ | ⟨k2, c2, hnth, hres, hgt, hmax⟩
      · right
        refine ⟨0, d, rfl, by rw [Nat.add_zero]; exact hres, hlt, ?_⟩
        intro c3 hc3
        rcases List.mem_cons.mp hc3 with rfl | hc3
        · exact le_refl _
        · exact hall c3 hc3
      · right
        refine ⟨k2 + 1, c2, hnth, ?_, lt_trans hlt hgt, ?_⟩
        · rw [show i + (k2 + 1) = (i + 1) + k2 by omega]
          exact hres
        · intro c3 hc3
          rcases List.mem_cons.mp hc3 with rfl | hc3
          · exact le_of_lt hgt
          · exact hmax c3 hc3
    · rw [if_neg hlt]
      rcases ih (i + 1) bs bi
        with ⟨hres, hall⟩ | ⟨k2, c2, hnth, hres, hgt, hmax⟩
      · left
        refine ⟨hres, ?_⟩
        intro c3 hc3
        rcases List.mem_cons.mp hc3 with rfl | hc3
        · exact le_of_not_lt hlt
        · exact hall c3 hc3
      · right
        refine ⟨k2 + 1, c2, hnth, ?_, hgt, ?_⟩
        · rw [show i + (k2 + 1) = (i + 1) + k2 by omega]
          exact hres
        · intro c3 hc3
          rcases List.mem_cons.mp hc3 with rfl | hc3
          · exact le_of_lt (lt_of_le_of_lt (le_of_not_lt hlt) hgt)
          · exact hmax c3 hc3

theorem bestChildIdx_max (n : MCTSNode) (i : Nat) (c : MCTSNode)
    (hb : MCTS_Agent.bestChildIdx n = some i) (hc : nth n.children i = some c) :
    ∀ c2 ∈ n.children, MCTSNode.getUCTScore c2.wins c2.visits n.visits
      ≤ MCTSNode.getUCTScore c.wins c.visits n.visits := by
  rcases bcAux_spec n.visits n.children 0 ⊥ none
    with ⟨hres, _⟩ | ⟨k, c2, hnth, hres, _, hmax⟩
  · rw [MCTS_Agent.bestChildIdx] at hb
    rw [hres] at hb
    exact Option.noConfusion hb
  · rw [MCTS_Agent.bestChildIdx] at hb
    rw [hres] at hb
    have hki : k = i := by
      have := Option.some.inj hb
      omega
    subst hki
    rw [hnth] at hc
    cases Option.some.inj hc
    exact hmax

/-- Claim C7: MCTS selection descends while the current node has no
unexplored moves and at least one child, at each step choosing the child
maximizing the UCT score `winRate + c * sqrt (ln parentVisits / childVisits)`
with `c = sqrt 2`; a child with zero visits has UCT score `Infinity`
(the top of `EReal`) and is therefore always preferred over any visited
child (whenever the parent has been visited, every visited child scores
a finite value, so the scan cannot choose it while an unvisited child
exists). -/
theorem mcts_uct_selection :
    (∀ (fuel : Nat) (n : MCTSNode),
      ¬(n.unexploredMoves.length = 0 ∧ 0 < n.children.length) →
      MCTS_Agent.selectNodePath fuel n = []) ∧
    (∀ (fuel : Nat) (n : MCTSNode) (i : Nat) (c : MCTSNode),
      n.unexploredMoves.length = 0 → MCTS_Agent.bestChildIdx n = some i →
      nth n.children i = some c →
      MCTS_Agent.selectNodePath (fuel + 1) n = i :: MCTS_Agent.selectNodePath fuel c) ∧
    (∀ (n : MCTSNode) (i : Nat) (c : MCTSNode),
      MCTS_Agent.bestChildIdx n = some i → nth n.children i = some c →
      ∀ c2 ∈ n.children, MCTSNode.getUCTScore c2.wins c2.visits n.visits
        ≤ MCTSNode.getUCTScore c.wins c.visits n.visits) ∧
    (∀ (w : Rat) (pv : Nat), MCTSNode.getUCTScore w 0 pv = ⊤) ∧
    (∀ (w : Rat) (v pv : Nat), v ≠ 0 → pv ≠ 0 →
      MCTSNode.getUCTScore w v pv
        = (((w : Real) / (v : Real)
            + Real.sqrt 2 * Real.sqrt (Real.log (pv : Real) / (v : Real)) : Real) : EReal)) ∧
    (∀ (n : MCTSNode) (i : Nat) (c : MCTSNode), 1 ≤ n.visits →
      MCTS_Agent.bestChildIdx n = some i → nth n.children i = some c →
      (∃ c0 ∈ n.children, c0.visits = 0) → c.visits = 0) := by
  refine ⟨?_, ?_, bestChildIdx_max, getUCTScore_zero_visits, getUCTScore_formula, ?_⟩
  · intro fuel n h
    cases fuel with
    | zero => rfl
    | succ fuel =>
      rw [MCTS_Agent.selectNodePath]
      rw [if_neg h]
  · intro fuel n i c hu hb hc
    have hlen : 0 < n.children.length := by
      have := nth_lt_length n.children i c hc
      omega
    rw [MCTS_Agent.selectNodePath]
    rw [if_pos ⟨hu, hlen⟩, hb]
    dsimp only
    rw [hc]
  · intro n i c hv hb hc hex
    obtain ⟨c0, hc0, hc0v⟩ := hex
    have hmax := bestChildIdx_max n i c hb hc
    have h0 := hmax c0 hc0
    rw [hc0v, getUCTScore_zero_visits] at h0
    have htop : MCTSNode.getUCTScore c.wins c.visits n.visits = ⊤ := top_le_iff.mp h0
    rcases getUCTScore_eq_top _ _ _ htop with h | h
    · exact h
    · omega

theorem mcts_uct_selection_witness :
    1 ≤ (MCTSNode.mk [] Player.X none 0 1 [MCTSNode.make [] Player.X none] []).visits ∧
    (∃ c0 ∈ (MCTSNode.mk [] Player.X none 0 1
        [MCTSNode.make [] Player.X none] []).children, c0.visits = 0) ∧
    (MCTSNode.make [] Player.X none).visits = 0 := by
  have hb : MCTS_Agent.bestChildIdx
      (MCTSNode.mk [] Player.X none 0 1 [MCTSNode.make [] Player.X none] []) = some 0 := by
    show MCTS_Agent.bcAux 1 [MCTSNode.make [] Player.X none] 0 ⊥ none = some 0
    rw [bcAux_cons]
    rw [show MCTSNode.getUCTScore (MCTSNode.make [] Player.X none).wins
        (MCTSNode.make [] Player.X none).visits 1 = (⊤ : EReal) from
      getUCTScore_zero_visits _ _]
    rw [if_pos bot_lt_top]
    rfl
  refine ⟨by decide, ⟨MCTSNode.make [] Player.X none, List.mem_cons_self _ _, rfl⟩, ?_⟩
  exact mcts_uct_selection.2.2.2.2.2
    (MCTSNode.mk [] Player.X none 0 1 [MCTSNode.make [] Player.X none] [])
    0 (MCTSNode.make [] Player.X none) (by decide) hb rfl
    ⟨MCTSNode.make [] Player.X none, List.mem_cons_self _ _, rfl⟩


/- ------------------------------------------------------------------ -/
/- Frame property: agents never mutate the caller board.               -/
/-                                                                     -/
/- JS arrays are heap objects, so the no-mutation contract is embedded -/
/- with an explicit store of boards: the caller board is an address    -/
/- into the store, `[...b]` array spreads become fresh allocations at  -/
/- the end of the store, and element writes (`newBoard[move] = p`)     -/
/- become `writeBoard` at the written array address.                   -/
/- ------------------------------------------------------------------ -/

abbrev Store := List Board

/-- Dereference a board address (out-of-range reads give `[]`). -/
def readBoard (s : Store) (a : Nat) : Board :=
  (nth s a).getD []

/-- Write `arr[i] = p` on the array at address `a`. -/
def writeBoard (s : Store) (a i : Nat) (p : Player) : Store :=
  modifyAt s a (fun b => setCell b i p)

namespace RandomAgent

/-- JS `RandomAgent.selectMove` over the store (`r` is the random draw
    standing for `Math.floor(Math.random() * availableMoves.length)`).
    The function only reads the caller board. -/
def selectMoveH (s : Store) (a : Nat) (r : Nat) : Int × Store :=
  let board := readBoard s a
  let availableMoves := getAvailableMoves board
  if availableMoves.length = 0 then (-1, s)
  else (((availableMoves.getD (r % availableMoves.length) 0 : Nat) : Int), s)

end RandomAgent

namespace MinimaxAgent

/-- JS `MinimaxAgent.minimax` over the store: each loop iteration copies
    the board at `a` into a fresh address (`const newBoard = [...board]`),
    writes the marker there, and recurses on the fresh address.  The
    scores computed agree with the pure `minimax`; the store version
    exists to express where the writes go. -/
def minimaxH : Nat → Store → Nat → Bool → Nat → Int × Store
  | 0, s, a, _, depth =>
    (if isTerminal (readBoard s a) then terminalScore (readBoard s a) depth else 0, s)
  | fuel + 1, s, a, isMaximizing, depth =>
    let board := readBoard s a
    if isTerminal board then (terminalScore board depth, s)
    else
      let playerToMove := if isMaximizing then Player.O else Player.X
      let r := (getAvailableMoves board).foldl
        (fun acc m =>
          let s1 := acc.2 ++ [readBoard acc.2 a]
          let a1 := acc.2.length
          let s2 := writeBoard s1 a1 m playerToMove
          let vr := minimaxH fuel s2 a1 (!isMaximizing) (depth + 1)
          (some (match acc.1 with
            | none => vr.1
            | some bv => if isMaximizing then max bv vr.1 else min bv vr.1), vr.2))
        ((none : Option Int), s)
      (r.1.getD 0, r.2)

/-- JS `MinimaxAgent.selectMove` over the store. -/
def selectMoveH (s : Store) (a : Nat) (player : Player) : Int × Store :=
  let board := readBoard s a
  let isMaximizing := player == Player.O
  let r := (getAvailableMoves board).foldl
    (fun (acc : Option Int × Int × Store) m =>
      let s1 := acc.2.2 ++ [readBoard acc.2.2 a]
      let a1 := acc.2.2.length
      let s2 := writeBoard s1 a1 m player
      let vr := minimaxH (emptyCount board) s2 a1 (!isMaximizing) 0
      let take : Bool :=
        match acc.1 with
        | none => true
        | some bv => if isMaximizing then decide (bv < vr.1) else decide (vr.1 < bv)
      if take then (some vr.1, (m : Int), vr.2) else (acc.1, acc.2.1, vr.2))
    ((none : Option Int), (-1 : Int), s)
  (r.2.1, r.2.2)

end MinimaxAgent

/-- Allocate a fresh board at the end of the store (a JS array spread
    `[...b]` evaluated as an allocation of the copied contents). -/
def allocBoard (s : Store) (b : Board) : Nat × Store :=
  (s.length, s ++ [b])

/-- `MCTSNode` over the store: identical to `MCTSNode` except that the
    node's board is an address into the store of boards, as in the JS
    heap (move lists such as `unexploredMoves` are number arrays freshly
    produced by `getAvailableMoves` and can never alias the caller's
    board, so they stay values). -/
inductive MCTSNodeH : Type where
  | mk (boardAddr : Nat) (playerToMove : Player) (move : Option Nat)
       (wins : Rat) (visits : Nat) (children : List MCTSNodeH)
       (unexploredMoves : List Nat) : MCTSNodeH

namespace MCTSNodeH

def boardAddr : MCTSNodeH → Nat
  | .mk a _ _ _ _ _ _ => a

def playerToMove : MCTSNodeH → Player
  | .mk _ p _ _ _ _ _ => p

def move : MCTSNodeH → Option Nat
  | .mk _ _ m _ _ _ _ => m

def wins : MCTSNodeH → Rat
  | .mk _ _ _ w _ _ _ => w

def visits : MCTSNodeH → Nat
  | .mk _ _ _ _ v _ _ => v

def children : MCTSNodeH → List MCTSNodeH
  | .mk _ _ _ _ _ cs _ => cs

def unexploredMoves : MCTSNodeH → List Nat
  | .mk _ _ _ _ _ _ u => u

def bump : MCTSNodeH → Rat → MCTSNodeH
  | .mk a p m w v cs u, c => .mk a p m (w + c) (v + 1) cs u

def setChildren : MCTSNodeH → List MCTSNodeH → MCTSNodeH
  | .mk a p m w v _ u, cs => .mk a p m w v cs u

end MCTSNodeH

namespace MCTS_Agent

/-- The JS `MCTSNode` constructor over the store: `this.board = [...board]`
    copies the source array into a fresh allocation, and
    `this.unexploredMoves = getAvailableMoves(this.board)` reads the
    fresh copy. -/
def mkNodeH (s : Store) (srcAddr : Nat) (playerToMove : Player) (move : Option Nat) :
    MCTSNodeH × Store :=
  let ar := allocBoard s (readBoard s srcAddr)
  (.mk ar.1 playerToMove move 0 0 [] (getAvailableMoves (readBoard ar.2 ar.1)), ar.2)

/-- Node lookup by child-index path (store version). -/
def getNodeH? : MCTSNodeH → List Nat → Option MCTSNodeH
  | n, [] => some n
  | n, i :: rest =>
    match nth n.children i with
    | some c => getNodeH? c rest
    | none => none

/-- Path update (store version of `updateAt`). -/
def updateAtH : MCTSNodeH → List Nat → (MCTSNodeH → MCTSNodeH) → MCTSNodeH
  | n, [], f => f n
  | n, i :: rest, f =>
    n.setChildren (modifyAt n.children i (fun c => updateAtH c rest f))

/-- The `selectNode` child scan (store version; UCT scores read no
    boards, only wins and visits). -/
noncomputable def bcAuxH (pv : Nat) : List MCTSNodeH → Nat → EReal → Option Nat → Option Nat
  | [], _, _, bi => bi
  | c :: cs, i, bs, bi =>
    let score := MCTSNode.getUCTScore c.wins c.visits pv
    if bs < score then bcAuxH pv cs (i + 1) score (some i)
    else bcAuxH pv cs (i + 1) bs bi

noncomputable def bestChildIdxH (n : MCTSNodeH) : Option Nat :=
  bcAuxH n.visits n.children 0 ⊥ none

/-- JS `MCTS_Agent.selectNode` as a descent path (store version). -/
noncomputable def selectNodePathH : Nat → MCTSNodeH → List Nat
  | 0, _ => []
  | fuel + 1, n =>
    if n.unexploredMoves.length = 0 ∧ 0 < n.children.length then
      match bestChildIdxH n with
      | some i =>
        match nth n.children i with
        | some c => i :: selectNodePathH fuel c
        | none => []
      | none => []
    else []

/-- The `rollout` while-loop over the store: all writes go to the
    scratch array at address `a` (the `tempBoard` allocated by
    `rolloutH` below). -/
def rolloutLoopH : Nat → Store → Nat → Player → (Nat → Nat) → Nat → Int × Store
  | 0, s, a, _, _, _ => (boardResult (readBoard s a), s)
  | fuel + 1, s, a, turn, rnd, k =>
    let board := readBoard s a
    if checkWin board = none ∧ checkTie board = false then
      let moves := getAvailableMoves board
      if moves.length = 0 then (boardResult board, s)
      else rolloutLoopH fuel
        (writeBoard s a (moves.getD (rnd k % moves.length) 0) turn) a (other turn) rnd (k + 1)
    else (boardResult board, s)

/-- JS `MCTS_Agent.rollout` over the store:
    `let tempBoard = [...boardState]` allocates a fresh scratch board,
    and the loop writes markers into it. -/
def rolloutH (s : Store) (boardAddr : Nat) (turn : Player) (rnd : Nat → Nat) : Int × Store :=
  let ar := allocBoard s (readBoard s boardAddr)
  rolloutLoopH (emptyCount (readBoard ar.2 ar.1) + 1) ar.2 ar.1 turn rnd 0

/-- The allocating half of JS `expandNode` over the store:
    `const newBoard = [...node.board]` allocates a copy,
    `newBoard[move] = playerWhoMoved` writes into it (the marker is the
    opposite of the node's player to move, as in the source), and the
    `MCTSNode` constructor copies `newBoard` once more. -/
def expandChildH (s : Store) (n : MCTSNodeH) : Option MCTSNodeH × Store :=
  match popLast n.unexploredMoves with
  | none => (none, s)
  | some (_, move) =>
    let playerWhoMoved := other n.playerToMove
    let ar := allocBoard s (readBoard s n.boardAddr)
    let s2 := writeBoard ar.2 ar.1 move playerWhoMoved
    let nextPlayerToMove := other playerWhoMoved
    let cr := mkNodeH s2 ar.1 nextPlayerToMove (some move)
    (some cr.1, cr.2)

/-- The node-updating half of JS `expandNode`: pop the move from
    `unexploredMoves` (the same last element `expandChildH` used) and
    append the already-constructed child. -/
def attachChild (child : MCTSNodeH) (n : MCTSNodeH) : MCTSNodeH :=
  match popLast n.unexploredMoves with
  | none => n
  | some (rest, _) =>
    .mk n.boardAddr n.playerToMove n.move n.wins n.visits (n.children ++ [child]) rest

/-- JS `MCTS_Agent.backpropagate` (store version; it touches no boards,
    only wins, visits and `playerToMove`). -/
def backpropagateH (result : Int) : MCTSNodeH → Int → List Nat → MCTSNodeH
  | n, persp, [] => n.bump (credit result persp)
  | n, persp, i :: rest =>
    (n.bump (credit result persp)).setChildren
      (modifyAt n.children i
        (fun c => backpropagateH result c (perspSign n.playerToMove) rest))

/-- One iteration of the `selectMove` loop over the store. -/
noncomputable def mctsStepH (rnd : Nat → Nat) (s : Store) (root : MCTSNodeH) :
    MCTSNodeH × Store :=
  let path := selectNodePathH (emptyCount (readBoard s root.boardAddr) + 1) root
  match getNodeH? root path with
  | none => (root, s)
  | some n =>
    let nb := readBoard s n.boardAddr
    if checkWin nb = none ∧ checkTie nb = false then
      match expandChildH s n with
      | (some child, s1) =>
        let rr := rolloutH s1 child.boardAddr child.playerToMove rnd
        (backpropagateH rr.1 (updateAtH root path (attachChild child)) 1
          (path ++ [n.children.length]), rr.2)
      | (none, s1) => (root, s1)
    else
      (backpropagateH (boardResult nb) root 1 path, s)

/-- The iteration loop over the store. -/
noncomputable def mctsIterateH (rnd : Nat → Nat → Nat) : Nat → MCTSNodeH → Store →
    MCTSNodeH × Store
  | 0, root, s => (root, s)
  | i + 1, root, s =>
    let prev := mctsIterateH rnd i root s
    mctsStepH (rnd i) prev.2 prev.1

/-- The final child scan (store version; reads no boards). -/
def fsAuxH : List MCTSNodeH → Option Rat → Option Nat → Int → Option Nat
  | [], _, bm, _ => bm
  | c :: cs, br, bm, mv =>
    if c.visits = 0 then fsAuxH cs br bm mv
    else
      let ratio : Rat := c.wins / (c.visits : Rat)
      match br with
      | none => fsAuxH cs (some ratio) c.move (c.visits : Int)
      | some b =>
        if b < ratio then fsAuxH cs (some ratio) c.move (c.visits : Int)
        else if ratio = b ∧ mv < (c.visits : Int) then fsAuxH cs (some b) c.move (c.visits : Int)
        else fsAuxH cs br bm mv

/-- JS `MCTS_Agent.selectMove` over the store: the root constructor
    copies the caller's board, the loop allocates and writes only fresh
    boards (expansion copies and rollout scratch boards), and the
    fallback re-reads the caller's board at the end of the call. -/
noncomputable def selectMoveH (s : Store) (a : Nat) (player : Player)
    (iterations : Nat) (rnd : Nat → Nat → Nat) : Option Nat × Store :=
  let rs := mkNodeH s a player none
  let t := mctsIterateH rnd iterations rs.1 rs.2
  (match fsAuxH t.1.children none none (-1) with
   | some m => some m
   | none => (getAvailableMoves (readBoard t.2 a)).head?, t.2)

end MCTS_Agent

/-- One store extends another when it is at least as long and agrees on
    every address of the shorter one (the relation every operation of
    the call establishes between its entry and exit stores: fresh
    allocations at the end, writes only at fresh addresses). -/
def StoreExtends (s s2 : Store) : Prop :=
  s.length ≤ s2.length ∧ ∀ j, j < s.length → nth s2 j = nth s j

theorem storeExtends_refl (s : Store) : StoreExtends s s :=
  ⟨Nat.le_refl _, fun _ _ => rfl⟩

theorem storeExtends_trans {s1 s2 s3 : Store}
    (h12 : StoreExtends s1 s2) (h23 : StoreExtends s2 s3) : StoreExtends s1 s3 :=
  ⟨Nat.le_trans h12.1 h23.1,
    fun j hj => (h23.2 j (Nat.lt_of_lt_of_le hj h12.1)).trans (h12.2 j hj)⟩

theorem allocBoard_extends (s : Store) (b : Board) :
    StoreExtends s (allocBoard s b).2 := by
  refine ⟨by simp [allocBoard], ?_⟩
  intro j hj
  exact nth_append_left _ _ j hj

theorem writeBoard_length (s : Store) (a i : Nat) (p : Player) :
    (writeBoard s a i p).length = s.length := by
  unfold writeBoard
  exact modifyAt_length _ _ _

theorem writeBoard_frame (s : Store) (a i : Nat) (p : Player) (j : Nat) (hj : j ≠ a) :
    nth (writeBoard s a i p) j = nth s j := by
  unfold writeBoard
  rw [nth_modifyAt, if_neg hj]

theorem mkNodeH_extends (s : Store) (src : Nat) (p : Player) (mv : Option Nat) :
    StoreExtends s (MCTS_Agent.mkNodeH s src p mv).2 :=
  allocBoard_extends s (readBoard s src)

theorem rolloutLoopH_frame :
    ∀ (fuel : Nat) (s : Store) (a : Nat) (turn : Player) (rnd : Nat → Nat) (k : Nat),
      (MCTS_Agent.rolloutLoopH fuel s a turn rnd k).2.length = s.length ∧
      ∀ j, j ≠ a → nth (MCTS_Agent.rolloutLoopH fuel s a turn rnd k).2 j = nth s j := by
  intro fuel
  induction fuel with
  | zero => intro s a turn rnd k; exact ⟨rfl, fun _ _ => rfl⟩
  | succ fuel ih =>
    intro s a turn rnd k
    rw [MCTS_Agent.rolloutLoopH]
    by_cases hterm : checkWin (readBoard s a) = none ∧ checkTie (readBoard s a) = false
    · rw [if_pos hterm]
      dsimp only
      by_cases hmov : (getAvailableMoves (readBoard s a)).length = 0
      · rw [if_pos hmov]
        exact ⟨rfl, fun _ _ => rfl⟩
      · rw [if_neg hmov]
        have hih := ih (writeBoard s a
          ((getAvailableMoves (readBoard s a)).getD
            (rnd k % (getAvailableMoves (readBoard s a)).length) 0) turn)
          a (other turn) rnd (k + 1)
        refine ⟨hih.1.trans (writeBoard_length _ _ _ _), ?_⟩
        intro j hj
        rw [hih.2 j hj, writeBoard_frame _ _ _ _ j hj]
    · rw [if_neg hterm]
      exact ⟨rfl, fun _ _ => rfl⟩

theorem rolloutH_extends (s : Store) (ba : Nat) (turn : Player) (rnd : Nat → Nat) :
    StoreExtends s (MCTS_Agent.rolloutH s ba turn rnd).2 := by
  unfold MCTS_Agent.rolloutH
  simp only [allocBoard]
  have hloop := rolloutLoopH_frame
    (emptyCount (readBoard (s ++ [readBoard s ba]) s.length) + 1)
    (s ++ [readBoard s ba]) s.length turn rnd 0
  constructor
  · rw [hloop.1]
    simp
  · intro j hj
    rw [hloop.2 j (by omega)]
    exact nth_append_left _ _ j hj

theorem expandChildH_extends (s : Store) (n : MCTSNodeH) :
    StoreExtends s (MCTS_Agent.expandChildH s n).2 := by
  unfold MCTS_Agent.expandChildH
  cases hpop : MCTS_Agent.popLast n.unexploredMoves with
  | none => exact storeExtends_refl s
  | some pm =>
    obtain ⟨rest, mv⟩ := pm
    dsimp only
    have h1 : StoreExtends s (allocBoard s (readBoard s n.boardAddr)).2 :=
      allocBoard_extends s _
    have h2 : StoreExtends s
        (writeBoard (allocBoard s (readBoard s n.boardAddr)).2 s.length mv
          (other n.playerToMove)) := by
      refine ⟨?_, ?_⟩
      · rw [writeBoard_length]
        exact h1.1
      · intro j hj
        rw [writeBoard_frame _ _ _ _ j (by omega)]
        exact h1.2 j hj
    exact storeExtends_trans h2 (mkNodeH_extends _ _ _ _)

theorem mctsStepH_extends (rnd : Nat → Nat) (s : Store) (root : MCTSNodeH) :
    StoreExtends s (MCTS_Agent.mctsStepH rnd s root).2 := by
  simp only [MCTS_Agent.mctsStepH]
  cases hget : MCTS_Agent.getNodeH? root
      (MCTS_Agent.selectNodePathH (emptyCount (readBoard s root.boardAddr) + 1) root) with
  | none => exact storeExtends_refl s
  | some n =>
    dsimp only
    by_cases hterm : checkWin (readBoard s n.boardAddr) = none ∧
        checkTie (readBoard s n.boardAddr) = false
    · rw [if_pos hterm]
      cases hec : MCTS_Agent.expandChildH s n with
      | mk oc s1 =>
        have hext1 : StoreExtends s s1 := by
          have := expandChildH_extends s n
          rw [hec] at this
          exact this
        cases oc with
        | none => exact hext1
        | some child =>
          dsimp only
          exact storeExtends_trans hext1
            (rolloutH_extends s1 child.boardAddr child.playerToMove rnd)
    · rw [if_neg hterm]
      exact storeExtends_refl s

theorem mctsIterateH_extends (rnd : Nat → Nat → Nat) :
    ∀ (k : Nat) (root : MCTSNodeH) (s : Store),
      StoreExtends s (MCTS_Agent.mctsIterateH rnd k root s).2 := by
  intro k
  induction k with
  | zero => intro root s; exact storeExtends_refl s
  | succ k ih =>
    intro root s
    rw [MCTS_Agent.mctsIterateH]
    exact storeExtends_trans (ih root s)
      (mctsStepH_extends (rnd k) (MCTS_Agent.mctsIterateH rnd k root s).2
        (MCTS_Agent.mctsIterateH rnd k root s).1)

/-- A fold whose every step extends the store and preserves its prefix
    also extends and preserves overall. -/
theorem foldl_frame {α β : Type _} (π : α → Store) (step : α → β → α)
    (hstep : ∀ (acc : α) (x : β), (π acc).length ≤ (π (step acc x)).length ∧
      ∀ j, j < (π acc).length → nth (π (step acc x)) j = nth (π acc) j) :
    ∀ (l : List β) (acc : α),
      (π acc).length ≤ (π (l.foldl step acc)).length ∧
      ∀ j, j < (π acc).length → nth (π (l.foldl step acc)) j = nth (π acc) j := by
  intro l
  induction l with
  | nil => intro acc; exact ⟨Nat.le_refl _, fun j _ => rfl⟩
  | cons x xs ih =>
    intro acc
    have h1 := hstep acc x
    have h2 := ih (step acc x)
    refine ⟨Nat.le_trans h1.1 h2.1, ?_⟩
    intro j hj
    rw [List.foldl_cons]
    rw [h2.2 j (Nat.lt_of_lt_of_le hj h1.1), h1.2 j hj]

theorem minimaxH_frame :
    ∀ (fuel : Nat) (s : Store) (a : Nat) (isMax : Bool) (depth : Nat),
      s.length ≤ (MinimaxAgent.minimaxH fuel s a isMax depth).2.length ∧
      ∀ j, j < s.length → nth (MinimaxAgent.minimaxH fuel s a isMax depth).2 j = nth s j := by
  intro fuel
  induction fuel with
  | zero =>
    intro s a isMax depth
    exact ⟨Nat.le_refl _, fun j _ => rfl⟩
  | succ fuel ih =>
    intro s a isMax depth
    show s.length ≤ (MinimaxAgent.minimaxH (fuel + 1) s a isMax depth).2.length ∧ _
    rw [MinimaxAgent.minimaxH]
    by_cases hterm : isTerminal (readBoard s a)
    · rw [if_pos hterm]
      exact ⟨Nat.le_refl _, fun j _ => rfl⟩
    · rw [if_neg hterm]
      dsimp only
      refine foldl_frame Prod.snd _ ?_ (getAvailableMoves (readBoard s a)) (none, s)
      intro acc m
      have hw : (writeBoard (acc.2 ++ [readBoard acc.2 a]) acc.2.length m
          (if isMax then Player.O else Player.X)).length = acc.2.length + 1 := by
        unfold writeBoard
        rw [modifyAt_length]
        simp
      have hihm := ih (writeBoard (acc.2 ++ [readBoard acc.2 a]) acc.2.length m
          (if isMax then Player.O else Player.X)) acc.2.length (!isMax) (depth + 1)
      constructor
      · refine Nat.le_trans ?_ hihm.1
        rw [hw]
        omega
      · intro j hj
        have hstep1 : nth (writeBoard (acc.2 ++ [readBoard acc.2 a]) acc.2.length m
            (if isMax then Player.O else Player.X)) j = nth acc.2 j := by
          unfold writeBoard
          rw [nth_modifyAt]
          rw [if_neg (by omega)]
          exact nth_append_left _ _ j hj
        rw [hihm.2 j (by rw [hw]; omega), hstep1]

/-- Claim C9: for each agent — random, minimax, MCTS — `selectMove`
leaves the caller's board unchanged: in the store embedding, every cell
of the board at the caller's address holds the same value after the call
as before it.  The random agent only reads and returns the store
untouched; the minimax and MCTS agents allocate fresh boards (the
per-move copies of minimax, the MCTS root-constructor copy, expansion
copies and rollout scratch boards) and write only into those fresh
allocations, so every address that existed at entry is preserved. -/
theorem agents_preserve_callers_board :
    (∀ (s : Store) (a r : Nat), (RandomAgent.selectMoveH s a r).2 = s) ∧
    (∀ (s : Store) (a : Nat) (p : Player) (j : Nat), j < s.length →
      nth (MinimaxAgent.selectMoveH s a p).2 j = nth s j) ∧
    (∀ (s : Store) (a : Nat) (p : Player) (k : Nat) (rnd : Nat → Nat → Nat) (j : Nat),
      j < s.length → nth (MCTS_Agent.selectMoveH s a p k rnd).2 j = nth s j) := by
  refine ⟨?_, ?_, ?_⟩
  · intro s a r
    unfold RandomAgent.selectMoveH
    dsimp only
    split <;> rfl
  · intro s a p j hj
    unfold MinimaxAgent.selectMoveH
    dsimp only
    refine (foldl_frame (fun acc => acc.2.2) _ ?_ (getAvailableMoves (readBoard s a))
      ((none : Option Int), (-1 : Int), s)).2 j hj
    intro acc m
    have hw : (writeBoard (acc.2.2 ++ [readBoard acc.2.2 a]) acc.2.2.length m p).length
        = acc.2.2.length + 1 := by
      unfold writeBoard
      rw [modifyAt_length]
      simp
    have hihm := minimaxH_frame (emptyCount (readBoard s a))
      (writeBoard (acc.2.2 ++ [readBoard acc.2.2 a]) acc.2.2.length m p)
      acc.2.2.length (!(p == Player.O)) 0
    constructor
    · have hlen : acc.2.2.length ≤ (writeBoard (acc.2.2 ++ [readBoard acc.2.2 a])
          acc.2.2.length m p).length := by
        rw [hw]; omega
      have := Nat.le_trans hlen hihm.1
      by_cases htake : (match acc.1 with
        | none => true
        | some bv => if (p == Player.O) = true then decide (bv <
            (MinimaxAgent.minimaxH (emptyCount (readBoard s a))
              (writeBoard (acc.2.2 ++ [readBoard acc.2.2 a]) acc.2.2.length m p)
              acc.2.2.length (!(p == Player.O)) 0).1)
          else decide ((MinimaxAgent.minimaxH (emptyCount (readBoard s a))
              (writeBoard (acc.2.2 ++ [readBoard acc.2.2 a]) acc.2.2.length m p)
              acc.2.2.length (!(p == Player.O)) 0).1 < bv)) = true
      · rw [if_pos htake]
        exact this
      · rw [if_neg htake]
        exact this
    · intro j2 hj2
      dsimp only at hj2
      have hstep1 : nth (writeBoard (acc.2.2 ++ [readBoard acc.2.2 a])
          acc.2.2.length m p) j2 = nth acc.2.2 j2 := by
        unfold writeBoard
        rw [nth_modifyAt]
        rw [if_neg (by omega)]
        exact nth_append_left _ _ j2 hj2
      have hmm := hihm.2 j2 (by rw [hw]; omega)
      by_cases htake : (match acc.1 with
        | none => true
        | some bv => if (p == Player.O) = true then decide (bv <
            (MinimaxAgent.minimaxH (emptyCount (readBoard s a))
              (writeBoard (acc.2.2 ++ [readBoard acc.2.2 a]) acc.2.2.length m p)
              acc.2.2.length (!(p == Player.O)) 0).1)
          else decide ((MinimaxAgent.minimaxH (emptyCount (readBoard s a))
              (writeBoard (acc.2.2 ++ [readBoard acc.2.2 a]) acc.2.2.length m p)
              acc.2.2.length (!(p == Player.O)) 0).1 < bv)) = true
      · rw [if_pos htake]
        dsimp only
        rw [hmm, hstep1]
      · rw [if_neg htake]
        dsimp only
        rw [hmm, hstep1]
  · intro s a p k rnd j hj
    have hroot := mkNodeH_extends s a p none
    have hloop := mctsIterateH_extends rnd k (MCTS_Agent.mkNodeH s a p none).1
      (MCTS_Agent.mkNodeH s a p none).2
    have hext := storeExtends_trans hroot hloop
    exact hext.2 j hj

theorem agents_preserve_callers_board_witness :
    ((0 : Nat) < ([[some Player.X, none, none, none]] : Store).length ∧
      nth (MinimaxAgent.selectMoveH [[some Player.X, none, none, none]] 0 Player.O).2 0
        = nth ([[some Player.X, none, none, none]] : Store) 0) ∧
    ((0 : Nat) < ([[some Player.X, none, none, none]] : Store).length ∧
      nth (MCTS_Agent.selectMoveH [[some Player.X, none, none, none]] 0 Player.O 2
          (fun _ _ => 0)).2 0
        = nth ([[some Player.X, none, none, none]] : Store) 0) :=
  ⟨⟨by decide, agents_preserve_callers_board.2.1 [[some Player.X, none, none, none]]
      0 Player.O 0 (by decide)⟩,
   ⟨by decide, agents_preserve_callers_board.2.2 [[some Player.X, none, none, none]]
      0 Player.O 2 (fun _ _ => 0) 0 (by decide)⟩⟩

end TTT


